import Mathlib

/-!
Verification of the quote-conversion tools in `tools/smartquotes.py` and
`tools/straightquotes.py`.  Strings are modelled as lists of characters
(`Str`), mirroring that all substitutions in the source operate on Unicode
scalar values.  The regex character class `\w` of Python is modelled as
ASCII alphanumerics plus underscore, and `\s` as ASCII whitespace; the
quote characters the tools manipulate fall outside both classes in Python
exactly as they do here.
-/

/-- The straight single quote, U+0027. -/
def SQ : Char := Char.ofNat 39

/-- The straight double quote, U+0022. -/
def DQ : Char := Char.ofNat 34

/-- The backtick, U+0060. -/
def BT : Char := Char.ofNat 96

/-- The newline character. -/
def NL : Char := Char.ofNat 10

/-- LEFT-DOUBLE-QUOTATION-MARK, U+201C. -/
def LDQ : Char := Char.ofNat 8220

/-- RIGHT-DOUBLE-QUOTATION-MARK, U+201D. -/
def RDQ : Char := Char.ofNat 8221

/-- LEFT-SINGLE-QUOTATION-MARK, U+2018. -/
def LSQ : Char := Char.ofNat 8216

/-- RIGHT-SINGLE-QUOTATION-MARK, U+2019. -/
def RSQ : Char := Char.ofNat 8217

/-- A string, as a list of Unicode scalar values. -/
abbrev Str := List Char

/-- The regex class `\w` (word character): alphanumeric or underscore. -/
def isWord (c : Char) : Bool := c.isAlphanum || c = '_'

/-- The regex class `\s` (whitespace). -/
def isSpace (c : Char) : Bool := c.isWhitespace

/-- Prepend a character to the first piece of a nonempty piece list
(used by the splitting functions). -/
def consHead (c : Char) : List Str → List Str
  | [] => [[c]]
  | p :: ps => (c :: p) :: ps

/-- Python `text.split(ch)`: split a string on every occurrence of a
character; always returns at least one (possibly empty) piece. -/
def splitOnChar (ch : Char) : Str → List Str
  | [] => [[]]
  | c :: rest => if c = ch then [] :: splitOnChar ch rest else consHead c (splitOnChar ch rest)

/-- Split a document into lines on the newline character,
as `text.split(chr(10))` in the source. -/
def splitNL (t : Str) : List Str := splitOnChar NL t

/-- Rejoin lines with the newline character, as `chr(10).join(result)`. -/
def joinNL (ls : List Str) : Str := List.intercalate [NL] ls

/-- Worker for the double-quote pairing rule.  The accumulator is `some buf`
when an opening straight double quote has been read and `buf` holds the
(reversed) characters seen since.  Implements the leftmost nonoverlapping
substitution of the regex: double quote, any run without a double quote,
double quote; the opening becomes `LDQ` and the closing `RDQ`; an
unmatched trailing quote stays straight. -/
def subDoubleAux : Option Str → Str → Str
  | none, [] => []
  | none, c :: rest =>
    if c = DQ then subDoubleAux (some []) rest
    else c :: subDoubleAux none rest
  | some buf, [] => DQ :: buf.reverse
  | some buf, c :: rest =>
    if c = DQ then LDQ :: buf.reverse ++ RDQ :: subDoubleAux none rest
    else subDoubleAux (some (c :: buf)) rest

/-- Rule (a) of the curl grammar: pair straight double quotes. -/
def subDouble (t : Str) : Str := subDoubleAux none t

/-- Rule (b) of the curl grammar: a straight single quote flanked by word
characters becomes `RSQ`.  Leftmost nonoverlapping; scanning resumes after
the trailing word character of a match, exactly as `re.sub` does. -/
def subContraction : Str → Str
  | [] => []
  | [c] => [c]
  | [c, d] => [c, d]
  | a :: b :: c :: rest =>
    if b = SQ ∧ isWord a ∧ isWord c then a :: RSQ :: c :: subContraction rest
    else a :: subContraction (b :: c :: rest)

/-- Scanner for rule (c) away from the start of the text: a whitespace
character, straight quote, one word character, straight quote, then
whitespace or end of text; both quotes become `RSQ`.  The bounding
whitespace is consumed by a match, so scanning resumes after it. -/
def subNIdiomGo : Str → Str
  | s :: q1 :: w :: q2 :: t :: rest3 =>
    if isSpace s ∧ q1 = SQ ∧ q2 = SQ ∧ isWord w then
      if isSpace t then s :: RSQ :: w :: RSQ :: t :: subNIdiomGo rest3
      else s :: subNIdiomGo (q1 :: w :: q2 :: t :: rest3)
    else s :: subNIdiomGo (q1 :: w :: q2 :: t :: rest3)
  | [s, q1, w, q2] =>
    if isSpace s ∧ q1 = SQ ∧ q2 = SQ ∧ isWord w then [s, RSQ, w, RSQ]
    else s :: subNIdiomGo [q1, w, q2]
  | s :: rest => s :: subNIdiomGo rest
  | [] => []

/-- Rule (c) of the curl grammar: the paired-single-quote idiom, with the
start-of-text alternative of the leading group handled here. -/
def subNIdiom (t : Str) : Str :=
  match t with
  | q1 :: w :: q2 :: rest =>
    if q1 = SQ ∧ q2 = SQ ∧ isWord w then
      match rest with
      | [] => [RSQ, w, RSQ]
      | s :: rest2 =>
        if isSpace s then RSQ :: w :: RSQ :: s :: subNIdiomGo rest2
        else subNIdiomGo t
    else subNIdiomGo t
  | _ => subNIdiomGo t

/-- Scanner for rule (d) away from the start of the text: whitespace,
straight quote, word character; the quote becomes `RSQ`. -/
def subElisionGo : Str → Str
  | s :: q :: w :: rest2 =>
    if isSpace s ∧ q = SQ ∧ isWord w then s :: RSQ :: w :: subElisionGo rest2
    else s :: subElisionGo (q :: w :: rest2)
  | s :: rest => s :: subElisionGo rest
  | [] => []

/-- Rule (d) of the curl grammar: word-initial elision, with the
start-of-text alternative handled here. -/
def subElision (t : Str) : Str :=
  match t with
  | q :: w :: rest =>
    if q = SQ ∧ isWord w then RSQ :: w :: subElisionGo rest
    else subElisionGo t
  | _ => subElisionGo t

/-- Worker for the inline-code span splitter, mirroring
`re.split` on the pattern backtick, one or more non-backticks, backtick.
The accumulator is `some buf` when a backtick has been read and `buf`
holds the (reversed) non-backtick characters seen since.  The head of the
returned list is always the prose piece currently being built. -/
def splitInlineAux : Option Str → Str → List Str
  | none, [] => [[]]
  | none, c :: rest =>
    if c = BT then splitInlineAux (some []) rest
    else consHead c (splitInlineAux none rest)
  | some buf, [] => [BT :: buf.reverse]
  | some buf, c :: rest =>
    if c = BT then
      if buf = [] then consHead BT (splitInlineAux (some []) rest)
      else [] :: (BT :: buf.reverse ++ [BT]) :: splitInlineAux none rest
    else splitInlineAux (some (c :: buf)) rest

/-- Split a line into alternating prose and inline-code pieces, as
`re.split` with a capturing group does in `convert_prose_line`. -/
def splitInline (l : Str) : List Str := splitInlineAux none l

/-- The test `part.startswith(backtick) and part.endswith(backtick)` from
`convert_prose_line`; false on the empty string as in Python. -/
def isCodePart (p : Str) : Bool :=
  match p with
  | [] => false
  | c :: _ => c = BT && p.getLast? = some BT

/-- The line `---` that opens and closes YAML front matter. -/
def dashes : Str := ['-', '-', '-']

/-- The test `line.startswith(3 backticks)` for a code fence marker. -/
def startsFence (l : Str) : Bool :=
  match l with
  | a :: b :: c :: _ => a = BT && b = BT && c = BT
  | _ => false

/-- The mutable classifier state of `convert_quotes`. -/
structure QState where
  in_code_block : Bool
  in_front_matter : Bool
  front_matter_count : Nat

/-- The initial classifier state. -/
def initState : QState := ⟨false, false, 0⟩

/-- One iteration of the loop body of `convert_quotes`, shared verbatim by
both tools: `f` is the prose-line transformation, `isFirst` the test
`i == 0`.  Returns the updated state and the line appended to `result`. -/
def stepLine (f : Str → Str) (isFirst : Bool) (st : QState) (line : Str) : QState × Str :=
  if isFirst ∧ line = dashes then
    ({ st with in_front_matter := true, front_matter_count := 1 }, line)
  else if st.in_front_matter ∧ line = dashes then
    ({ st with front_matter_count := st.front_matter_count + 1,
               in_front_matter :=
                 if st.front_matter_count + 1 = 2 then false else st.in_front_matter }, line)
  else if startsFence line then
    ({ st with in_code_block := !st.in_code_block }, line)
  else if st.in_code_block ∨ st.in_front_matter then
    (st, line)
  else
    (st, f line)

/-- The classifier loop of `convert_quotes` over the list of lines. -/
def convertLines (f : Str → Str) : Bool → QState → List Str → List Str
  | _, _, [] => []
  | isFirst, st, l :: ls =>
    (stepLine f isFirst st l).2 :: convertLines f false (stepLine f isFirst st l).1 ls

namespace smartquotes

/-- The substitution grammar of `convert_quotes_in_text` in
`smartquotes.py`: the four regex rewrites in their source order. -/
def convert_quotes_in_text (t : Str) : Str :=
  subElision (subNIdiom (subContraction (subDouble t)))

/-- The per-piece action of `convert_prose_line`: inline code is kept
verbatim, prose pieces go through the substitution grammar. -/
def partTransform (p : Str) : Str :=
  if isCodePart p then p else convert_quotes_in_text p

/-- Python `convert_prose_line` from `smartquotes.py`. -/
def convert_prose_line (l : Str) : Str :=
  ((splitInline l).map partTransform).flatten

/-- Python `convert_quotes` from `smartquotes.py`. -/
def convert_quotes (t : Str) : Str :=
  joinNL (convertLines convert_prose_line true initState (splitNL t))

end smartquotes

namespace straightquotes

/-- Replace every occurrence of one character, as Python `str.replace`
with single-character arguments. -/
def replaceChar (a b : Char) (t : Str) : Str := t.map (fun c => if c = a then b else c)

/-- Python `straighten_quotes`: the four sequential replacements. -/
def straighten_quotes (t : Str) : Str :=
  replaceChar RSQ SQ (replaceChar LSQ SQ (replaceChar RDQ DQ (replaceChar LDQ DQ t)))

/-- The per-piece action of `convert_prose_line` in `straightquotes.py`. -/
def partTransform (p : Str) : Str :=
  if isCodePart p then p else straighten_quotes p

/-- Python `convert_prose_line` from `straightquotes.py`. -/
def convert_prose_line (l : Str) : Str :=
  ((splitInline l).map partTransform).flatten

/-- Python `convert_quotes` from `straightquotes.py`. -/
def convert_quotes (t : Str) : Str :=
  joinNL (convertLines convert_prose_line true initState (splitNL t))

end straightquotes

/-- The direction-indexed document conversion: `true` is the curl
direction, `false` the straighten direction. -/
def convQ (d : Bool) : Str → Str :=
  if d then smartquotes.convert_quotes else straightquotes.convert_quotes

/-- The direction-indexed prose-line transformation. -/
def proseL (d : Bool) : Str → Str :=
  if d then smartquotes.convert_prose_line else straightquotes.convert_prose_line

/-- The direction-indexed per-piece transformation. -/
def partT (d : Bool) : Str → Str :=
  if d then smartquotes.partTransform else straightquotes.partTransform

/-- The input the accumulator of `subDoubleAux` stands for. -/
def accDbl : Option Str → Str
  | none => []
  | some buf => DQ :: buf.reverse

/-- The input the accumulator of `splitInlineAux` stands for. -/
def accInl : Option Str → Str
  | none => []
  | some buf => BT :: buf.reverse

/-- Pointwise lifting of a character relation to strings of equal length. -/
def PW (R : Char → Char → Prop) : Str → Str → Prop
  | [], [] => True
  | c :: cs, d :: ds => R c d ∧ PW R cs ds
  | _, _ => False

/-- How one position may change in the curl direction: unchanged, or a
straight double quote turned curly, or a straight single quote turned
into an apostrophe. -/
def Rcurl (c d : Char) : Prop :=
  d = c ∨ (c = DQ ∧ (d = LDQ ∨ d = RDQ)) ∨ (c = SQ ∧ d = RSQ)

/-- How one position may change in the straighten direction. -/
def Rstr (c d : Char) : Prop :=
  d = c ∨ ((c = LDQ ∨ c = RDQ) ∧ d = DQ) ∨ ((c = LSQ ∨ c = RSQ) ∧ d = SQ)

/-- The single character map performed by `straighten_quotes`. -/
def mapChar (c : Char) : Char :=
  if c = LDQ then DQ else if c = RDQ then DQ
  else if c = LSQ then SQ else if c = RSQ then SQ else c

/-- Parity of the number of code-fence marker lines in a list of lines. -/
def fenceParity : List Str → Bool
  | [] => false
  | l :: ls => Bool.xor (startsFence l) (fenceParity ls)

/-- Modelled from the spec wording of the double-quote pairing rule: the
pieces between consecutive straight double quotes are rejoined pairing
quotes left to right, the opening of each pair becoming `LDQ` and the
closing `RDQ`, a final unpaired quote staying straight.  Used only to be
compared against `subDouble`, which is translated from the source. -/
def pairSegs : List Str → Str
  | [] => []
  | [s] => s
  | [s, t] => s ++ DQ :: t
  | s :: t :: u :: rest => s ++ LDQ :: t ++ RDQ :: pairSegs (u :: rest)

/-- Where a message of the command-line interface is written. -/
inductive OutChannel where
  | out : OutChannel
  | err : OutChannel
deriving DecidableEq

/-- An early exit of `main`: the channel its message is written to and the
process exit status. -/
structure UsageExit where
  channel : OutChannel
  code : Nat
deriving DecidableEq

/-- The test `a.startswith(two dashes)` used to separate flags from file
arguments in `main`. -/
def startsDashDash (a : Str) : Bool :=
  match a with
  | x :: y :: _ => x = '-' && y = '-'
  | _ => false

namespace smartquotes

/-- The usage-error handling at the top of `main` in `smartquotes.py`,
with the writing and exiting effects represented as data: fewer than two
entries in `sys.argv` prints the module docstring to standard output and
exits 1; otherwise, if no argument after the program name is a non-flag,
an error message goes to standard error and the process exits 1; otherwise
`main` proceeds (`none`). -/
def usageCheck (argv : List Str) : Option UsageExit :=
  if argv.length < 2 then some ⟨OutChannel.out, 1⟩
  else if (argv.drop 1).filter (fun a => !(startsDashDash a)) = [] then
    some ⟨OutChannel.err, 1⟩
  else none

end smartquotes

namespace straightquotes

/-- The usage-error handling at the top of `main` in `straightquotes.py`;
the code is identical to the one in `smartquotes.py`. -/
def usageCheck (argv : List Str) : Option UsageExit :=
  if argv.length < 2 then some ⟨OutChannel.out, 1⟩
  else if (argv.drop 1).filter (fun a => !(startsDashDash a)) = [] then
    some ⟨OutChannel.err, 1⟩
  else none

end straightquotes



theorem splitOnChar_ne_nil (ch : Char) : ∀ t, splitOnChar ch t ≠ []
  | [] => by simp [splitOnChar]
  | c :: rest => by
    simp only [splitOnChar]
    split
    · simp
    · cases h : splitOnChar ch rest with
      | nil => simp [consHead]
      | cons p ps => simp [consHead]

theorem joinNL_nil : joinNL [] = [] := rfl

theorem joinNL_single (l : Str) : joinNL [l] = l := by
  simp [joinNL, List.intercalate]

theorem joinNL_cons (l l2 : Str) (ls : List Str) :
    joinNL (l :: l2 :: ls) = l ++ NL :: joinNL (l2 :: ls) := by
  simp [joinNL, List.intercalate, List.intersperse]

theorem joinNL_consHead (c : Char) (L : List Str) :
    joinNL (consHead c L) = c :: joinNL L := by
  cases L with
  | nil => simp [consHead, joinNL, List.intercalate]
  | cons p ps =>
    cases ps with
    | nil => simp [consHead, joinNL_single]
    | cons q qs => simp [consHead, joinNL_cons]

theorem joinNL_splitNL : ∀ t : Str, joinNL (splitNL t) = t
  | [] => by simp [splitNL, splitOnChar, joinNL_single]
  | c :: rest => by
    simp only [splitNL, splitOnChar]
    split
    · rename_i h
      have hne := splitOnChar_ne_nil NL rest
      cases hsp : splitOnChar NL rest with
      | nil => exact absurd hsp hne
      | cons p ps =>
        have := joinNL_splitNL rest
        rw [joinNL_cons]
        simp only [List.nil_append]
        rw [← hsp] at *
        simp [splitNL] at this
        rw [this, h]
    · have := joinNL_splitNL rest
      rw [joinNL_consHead]
      simp [splitNL] at this
      rw [this]

theorem splitOnChar_not_mem (ch : Char) :
    ∀ t l, l ∈ splitOnChar ch t → ch ∉ l
  | [], l => by
    intro h
    simp [splitOnChar] at h
    simp [h]
  | c :: rest, l => by
    intro h
    simp only [splitOnChar] at h
    split at h
    · rcases List.mem_cons.mp h with h1 | h2
      · simp [h1]
      · exact splitOnChar_not_mem ch rest l h2
    · rename_i hc
      cases hsp : splitOnChar ch rest with
      | nil => exact absurd hsp (splitOnChar_ne_nil ch rest)
      | cons p ps =>
        rw [hsp] at h
        simp only [consHead] at h
        rcases List.mem_cons.mp h with h1 | h2
        · subst h1
          intro hmem
          rcases List.mem_cons.mp hmem with h3 | h4
          · exact hc h3.symm
          · exact splitOnChar_not_mem ch rest p (hsp ▸ List.mem_cons_self p ps) h4
        · exact splitOnChar_not_mem ch rest l (hsp ▸ List.mem_cons_of_mem p h2)

theorem splitOnChar_of_not_mem (ch : Char) :
    ∀ l : Str, ch ∉ l → splitOnChar ch l = [l]
  | [], _ => by simp [splitOnChar]
  | c :: rest, h => by
    have hc : ¬ c = ch := fun hh => h (by simp [hh])
    have hr : ch ∉ rest := fun hh => h (List.mem_cons_of_mem c hh)
    simp only [splitOnChar, if_neg hc, splitOnChar_of_not_mem ch rest hr, consHead]

theorem splitOnChar_append (ch : Char) :
    ∀ (l y : Str), ch ∉ l → splitOnChar ch (l ++ ch :: y) = l :: splitOnChar ch y
  | [], y, _ => by simp [splitOnChar]
  | c :: rest, y, h => by
    have hc : ¬ c = ch := fun hh => h (by simp [hh])
    have hr : ch ∉ rest := fun hh => h (List.mem_cons_of_mem c hh)
    simp only [List.cons_append, splitOnChar, if_neg hc]
    rw [List.append_eq, splitOnChar_append ch rest y hr]
    simp [consHead]

theorem splitNL_joinNL : ∀ ls : List Str, ls ≠ [] → (∀ l ∈ ls, NL ∉ l) →
    splitNL (joinNL ls) = ls
  | [], h, _ => absurd rfl h
  | [l], _, hf => by
    rw [joinNL_single]
    exact splitOnChar_of_not_mem NL l (hf l (by simp))
  | l :: l2 :: ls, _, hf => by
    rw [joinNL_cons]
    unfold splitNL
    rw [splitOnChar_append NL l (joinNL (l2 :: ls)) (hf l (by simp))]
    have := splitNL_joinNL (l2 :: ls) (by simp) (fun x hx => hf x (List.mem_cons_of_mem l hx))
    unfold splitNL at this
    rw [this]

theorem PW_refl {R : Char → Char → Prop} (h : ∀ c, R c c) : ∀ l, PW R l l
  | [] => trivial
  | c :: cs => ⟨h c, PW_refl h cs⟩

theorem PW_append {R : Char → Char → Prop} :
    ∀ (a b c d : Str), PW R a b → PW R c d → PW R (a ++ c) (b ++ d)
  | [], [], _, _, _, h2 => h2
  | [], _ :: _, _, _, h1, _ => False.elim h1
  | _ :: _, [], _, _, h1, _ => False.elim h1
  | _ :: xs, _ :: ys, c, d, h1, h2 => ⟨h1.1, PW_append xs ys c d h1.2 h2⟩

theorem PW_length {R : Char → Char → Prop} : ∀ {a b : Str}, PW R a b → a.length = b.length
  | [], [], _ => rfl
  | [], _ :: _, h => False.elim h
  | _ :: _, [], h => False.elim h
  | _ :: _, _ :: _, h => by simpa using PW_length h.2

theorem PW_mono {R R' : Char → Char → Prop} (hm : ∀ c d, R c d → R' c d) :
    ∀ {a b : Str}, PW R a b → PW R' a b
  | [], [], _ => trivial
  | [], _ :: _, h => False.elim h
  | _ :: _, [], h => False.elim h
  | _ :: _, _ :: _, h => ⟨hm _ _ h.1, PW_mono hm h.2⟩

theorem PW_mem {R : Char → Char → Prop} :
    ∀ {a b : Str}, PW R a b → ∀ d ∈ b, ∃ c ∈ a, R c d
  | [], [], _, d, hd => by simp at hd
  | [], _ :: _, h, _, _ => False.elim h
  | _ :: _, [], h, _, _ => False.elim h
  | x :: xs, y :: ys, h, d, hd => by
    rcases List.mem_cons.mp hd with h1 | h2
    · exact ⟨x, by simp, h1 ▸ h.1⟩
    · rcases PW_mem h.2 d h2 with ⟨c, hc, hr⟩
      exact ⟨c, List.mem_cons_of_mem x hc, hr⟩

theorem PW_map {R : Char → Char → Prop} {f : Char → Char} (h : ∀ c, R c (f c)) :
    ∀ l, PW R l (l.map f)
  | [] => trivial
  | c :: cs => ⟨h c, PW_map h cs⟩

theorem PW_flatten {R : Char → Char → Prop} (g : Str → Str) :
    ∀ ps : List Str, (∀ p ∈ ps, PW R p (g p)) →
      PW R ps.flatten (ps.map g).flatten
  | [], _ => trivial
  | p :: ps, h => by
    simp only [List.flatten_cons, List.map_cons]
    exact PW_append p (g p) ps.flatten ((ps.map g).flatten)
      (h p (by simp)) (PW_flatten g ps (fun q hq => h q (List.mem_cons_of_mem p hq)))

theorem PW_not_mem {R : Char → Char → Prop} {a : Char}
    (hR : ∀ c d, R c d → c ≠ a → d ≠ a) {l m : Str}
    (pw : PW R l m) (h : a ∉ l) : a ∉ m := by
  intro hmem
  rcases PW_mem pw a hmem with ⟨c, hc, hr⟩
  exact hR c a hr (fun hh => h (hh ▸ hc)) rfl

theorem Rcurl_refl (c : Char) : Rcurl c c := Or.inl rfl

theorem Rcurl_trans {a b c : Char} (h1 : Rcurl a b) (h2 : Rcurl b c) : Rcurl a c := by
  rcases h1 with h1 | ⟨ha, hb⟩ | ⟨ha, hb⟩
  · exact h1 ▸ h2
  · rcases h2 with h2 | ⟨hb2, _⟩ | ⟨hb2, _⟩
    · exact h2 ▸ Or.inr (Or.inl ⟨ha, hb⟩)
    · exfalso; rcases hb with h | h <;> rw [h] at hb2 <;> revert hb2 <;> decide
    · exfalso; rcases hb with h | h <;> rw [h] at hb2 <;> revert hb2 <;> decide
  · rcases h2 with h2 | ⟨hb2, _⟩ | ⟨hb2, _⟩
    · exact h2 ▸ Or.inr (Or.inr ⟨ha, hb⟩)
    · exfalso; rw [hb] at hb2; revert hb2; decide
    · exfalso; rw [hb] at hb2; revert hb2; decide

theorem PW_transC : ∀ (a b c : Str), PW Rcurl a b → PW Rcurl b c → PW Rcurl a c
  | [], [], [], _, _ => trivial
  | [], [], _ :: _, _, h2 => False.elim h2
  | [], _ :: _, _, h1, _ => False.elim h1
  | _ :: _, [], _, h1, _ => False.elim h1
  | _ :: _, _ :: _, [], _, h2 => False.elim h2
  | _ :: xs, _ :: ys, _ :: zs, h1, h2 =>
    ⟨Rcurl_trans h1.1 h2.1, PW_transC xs ys zs h1.2 h2.2⟩

theorem pw_subDoubleAux : ∀ (t : Str) (acc : Option Str),
    PW Rcurl (accDbl acc ++ t) (subDoubleAux acc t) := by
  intro t
  induction t with
  | nil =>
    intro acc
    cases acc with
    | none => trivial
    | some buf =>
      simp only [accDbl, subDoubleAux, List.append_nil]
      exact PW_refl Rcurl_refl (DQ :: buf.reverse)
  | cons c rest ih =>
    intro acc
    cases acc with
    | none =>
      simp only [accDbl, subDoubleAux, List.nil_append]
      split
      · rename_i hc
        subst hc
        simpa [accDbl] using ih (some [])
      · exact ⟨Rcurl_refl c, by simpa [accDbl] using ih none⟩
    | some buf =>
      simp only [accDbl, subDoubleAux]
      split
      · rename_i hc
        subst hc
        refine ⟨Or.inr (Or.inl ⟨rfl, Or.inl rfl⟩), ?_⟩
        exact PW_append _ _ _ _ (PW_refl Rcurl_refl buf.reverse)
          ⟨Or.inr (Or.inl ⟨rfl, Or.inr rfl⟩), by simpa [accDbl] using ih none⟩
      · have := ih (some (c :: buf))
        simp only [accDbl, List.reverse_cons] at this
        simpa [List.append_assoc] using this

theorem pw_subDouble (t : Str) : PW Rcurl t (subDouble t) := by
  simpa [accDbl] using pw_subDoubleAux t none

theorem Rcurl_SQ : Rcurl SQ RSQ := Or.inr (Or.inr ⟨rfl, rfl⟩)

theorem pw_subContraction : ∀ t, PW Rcurl t (subContraction t) := by
  intro t
  induction t using subContraction.induct with
  | case1 => trivial
  | case2 c => exact ⟨Rcurl_refl c, trivial⟩
  | case3 c d => exact ⟨Rcurl_refl c, Rcurl_refl d, trivial⟩
  | case4 a b c rest h ih =>
    simp only [subContraction, if_pos h]
    exact ⟨Rcurl_refl a, h.1 ▸ Rcurl_SQ, Rcurl_refl c, ih⟩
  | case5 a b c rest h ih =>
    simp only [subContraction, if_neg h]
    exact ⟨Rcurl_refl a, ih⟩

theorem pw_subNIdiomGo : ∀ t, PW Rcurl t (subNIdiomGo t) := by
  intro t
  induction t using subNIdiomGo.induct with
  | case1 s q1 w q2 u rest3 h hu ih =>
    simp only [subNIdiomGo, if_pos h, if_pos hu]
    exact ⟨Rcurl_refl s, h.2.1 ▸ Rcurl_SQ, Rcurl_refl w, h.2.2.1 ▸ Rcurl_SQ,
      Rcurl_refl u, ih⟩
  | case2 s q1 w q2 u rest3 h hu ih =>
    simp only [subNIdiomGo, if_pos h, if_neg hu]
    exact ⟨Rcurl_refl s, ih⟩
  | case3 s q1 w q2 u rest3 h ih =>
    simp only [subNIdiomGo, if_neg h]
    exact ⟨Rcurl_refl s, ih⟩
  | case4 s q1 w q2 h =>
    simp only [subNIdiomGo, if_pos h]
    exact ⟨Rcurl_refl s, h.2.1 ▸ Rcurl_SQ, Rcurl_refl w, h.2.2.1 ▸ Rcurl_SQ, trivial⟩
  | case5 s q1 w q2 h ih =>
    simp only [subNIdiomGo, if_neg h]
    exact ⟨Rcurl_refl s, ih⟩
  | case6 s rest h4 h3 ih =>
    match rest, h4, h3 with
    | [], _, _ => exact ⟨Rcurl_refl s, trivial⟩
    | [a], _, _ => exact ⟨Rcurl_refl s, Rcurl_refl a, trivial⟩
    | [a, b], _, _ => exact ⟨Rcurl_refl s, Rcurl_refl a, Rcurl_refl b, trivial⟩
    | [a, b, c], _, h3 => exact absurd rfl (h3 a b c)
    | a :: b :: c :: d :: e, h4, _ => exact absurd rfl (h4 a b c d e)
  | case7 => trivial

theorem pw_subNIdiom : ∀ t, PW Rcurl t (subNIdiom t) := by
  intro t
  match t with
  | [] => trivial
  | [a] => exact pw_subNIdiomGo [a]
  | [a, b] => exact pw_subNIdiomGo [a, b]
  | q1 :: w :: q2 :: rest =>
    simp only [subNIdiom]
    split
    · rename_i h
      split
      · exact ⟨h.1 ▸ Rcurl_SQ, Rcurl_refl w, h.2.1 ▸ Rcurl_SQ, trivial⟩
      · rename_i s rest2
        split
        · exact ⟨h.1 ▸ Rcurl_SQ, Rcurl_refl w, h.2.1 ▸ Rcurl_SQ, Rcurl_refl s,
            pw_subNIdiomGo rest2⟩
        · exact pw_subNIdiomGo (q1 :: w :: q2 :: s :: rest2)
    · exact pw_subNIdiomGo (q1 :: w :: q2 :: rest)

theorem pw_subElisionGo : ∀ t, PW Rcurl t (subElisionGo t) := by
  intro t
  induction t using subElisionGo.induct with
  | case1 s q w rest2 h ih =>
    simp only [subElisionGo, if_pos h]
    exact ⟨Rcurl_refl s, h.2.1 ▸ Rcurl_SQ, Rcurl_refl w, ih⟩
  | case2 s q w rest2 h ih =>
    simp only [subElisionGo, if_neg h]
    exact ⟨Rcurl_refl s, ih⟩
  | case3 s rest h2 ih =>
    match rest, h2 with
    | [], _ => exact ⟨Rcurl_refl s, trivial⟩
    | [a], _ => exact ⟨Rcurl_refl s, Rcurl_refl a, trivial⟩
    | a :: b :: c, h2 => exact absurd rfl (h2 a b c)
  | case4 => trivial

theorem pw_subElision : ∀ t, PW Rcurl t (subElision t) := by
  intro t
  match t with
  | [] => trivial
  | [a] => exact pw_subElisionGo [a]
  | q :: w :: rest =>
    simp only [subElision]
    split
    · rename_i h
      exact ⟨h.1 ▸ Rcurl_SQ, Rcurl_refl w, pw_subElisionGo rest⟩
    · exact pw_subElisionGo (q :: w :: rest)

theorem pw_curlText (t : Str) : PW Rcurl t (smartquotes.convert_quotes_in_text t) :=
  PW_transC _ _ _
    (PW_transC _ _ _
      (PW_transC _ _ _ (pw_subDouble t) (pw_subContraction _))
      (pw_subNIdiom _))
    (pw_subElision _)

theorem replaceChar_cons (a b c : Char) (t : Str) :
    straightquotes.replaceChar a b (c :: t)
      = (if c = a then b else c) :: straightquotes.replaceChar a b t := by
  simp [straightquotes.replaceChar]

theorem straighten_cons (c : Char) (t : Str) :
    straightquotes.straighten_quotes (c :: t)
      = mapChar c :: straightquotes.straighten_quotes t := by
  unfold straightquotes.straighten_quotes
  rw [replaceChar_cons, replaceChar_cons, replaceChar_cons, replaceChar_cons]
  congr 1
  by_cases h1 : c = LDQ
  · subst h1; decide
  · by_cases h2 : c = RDQ
    · subst h2; decide
    · by_cases h3 : c = LSQ
      · subst h3; decide
      · by_cases h4 : c = RSQ
        · subst h4; decide
        · simp [mapChar, h1, h2, h3, h4]

theorem straighten_eq_map : ∀ t : Str, straightquotes.straighten_quotes t = t.map mapChar
  | [] => rfl
  | c :: rest => by rw [straighten_cons, straighten_eq_map rest, List.map_cons]

theorem Rstr_mapChar (c : Char) : Rstr c (mapChar c) := by
  by_cases h1 : c = LDQ
  · subst h1
    exact Or.inr (Or.inl ⟨Or.inl rfl, by decide⟩)
  · by_cases h2 : c = RDQ
    · subst h2
      exact Or.inr (Or.inl ⟨Or.inr rfl, by decide⟩)
    · by_cases h3 : c = LSQ
      · subst h3
        exact Or.inr (Or.inr ⟨Or.inl rfl, by decide⟩)
      · by_cases h4 : c = RSQ
        · subst h4
          exact Or.inr (Or.inr ⟨Or.inr rfl, by decide⟩)
        · simp only [mapChar, h1, h2, h3, h4, if_false]
          exact Or.inl rfl

theorem pw_straightText (t : Str) : PW Rstr t (straightquotes.straighten_quotes t) := by
  rw [straighten_eq_map]
  exact PW_map Rstr_mapChar t

theorem flatten_consHead (c : Char) (L : List Str) :
    (consHead c L).flatten = c :: L.flatten := by
  cases L <;> simp [consHead]

theorem flatten_splitInlineAux : ∀ (t : Str) (acc : Option Str),
    (splitInlineAux acc t).flatten = accInl acc ++ t := by
  intro t
  induction t with
  | nil =>
    intro acc
    cases acc <;> simp [splitInlineAux, accInl]
  | cons c rest ih =>
    intro acc
    cases acc with
    | none =>
      simp only [splitInlineAux, accInl, List.nil_append]
      split
      · rename_i hc
        subst hc
        rw [ih (some [])]
        simp [accInl]
      · rw [flatten_consHead, ih none]
        simp [accInl]
    | some buf =>
      simp only [splitInlineAux, accInl]
      split
      · rename_i hc
        subst hc
        split
        · rename_i hbuf
          subst hbuf
          rw [flatten_consHead, ih (some [])]
          simp [accInl]
        · simp only [List.flatten_cons]
          rw [ih none]
          simp [accInl]
      · rw [ih (some (c :: buf))]
        simp [accInl]

theorem flatten_splitInline (t : Str) : (splitInline t).flatten = t := by
  simpa [accInl] using flatten_splitInlineAux t none

theorem splitInline_of_not_mem : ∀ l : Str, BT ∉ l → splitInline l = [l] := by
  intro l
  unfold splitInline
  induction l with
  | nil => intro h; rfl
  | cons c rest ih =>
    intro h
    have hc : ¬ c = BT := fun hh => h (by simp [hh])
    have hr : BT ∉ rest := fun hh => h (List.mem_cons_of_mem c hh)
    simp only [splitInlineAux, if_neg hc]
    rw [ih hr]
    rfl

theorem pw_curlPart (p : Str) : PW Rcurl p (smartquotes.partTransform p) := by
  unfold smartquotes.partTransform
  split
  · exact PW_refl Rcurl_refl p
  · exact pw_curlText p

theorem pw_curlLine (l : Str) : PW Rcurl l (smartquotes.convert_prose_line l) := by
  have h := PW_flatten smartquotes.partTransform (splitInline l)
    (fun p _ => pw_curlPart p)
  rw [flatten_splitInline] at h
  exact h

theorem pw_strPart (p : Str) : PW Rstr p (straightquotes.partTransform p) := by
  unfold straightquotes.partTransform
  split
  · exact PW_refl (fun c => Or.inl rfl) p
  · exact pw_straightText p

theorem pw_strLine (l : Str) : PW Rstr l (straightquotes.convert_prose_line l) := by
  have h := PW_flatten straightquotes.partTransform (splitInline l)
    (fun p _ => pw_strPart p)
  rw [flatten_splitInline] at h
  exact h

theorem startsFence_dashes : startsFence dashes = false := by decide

theorem convertLines_length (f : Str → Str) :
    ∀ (ls : List Str) (b : Bool) (st : QState),
      (convertLines f b st ls).length = ls.length
  | [], _, _ => rfl
  | l :: ls, b, st => by
    simp [convertLines, convertLines_length f ls false (stepLine f b st l).1]

theorem stepLine_out (f : Str → Str) (b : Bool) (st : QState) (l : Str) :
    (stepLine f b st l).2 = l ∨ (stepLine f b st l).2 = f l := by
  unfold stepLine
  split_ifs <;> simp

theorem stepLine_icb (f : Str → Str) (b : Bool) (st : QState) (l : Str) :
    (stepLine f b st l).1.in_code_block
      = Bool.xor st.in_code_block (startsFence l) := by
  unfold stepLine
  split_ifs with h1 h2 h3 h4 h5
  · rw [h1.2, startsFence_dashes]
    simp
  · rw [h2.2, startsFence_dashes]
    simp
  · rw [h2.2, startsFence_dashes]
    simp
  · rw [h4]
    simp
  · have hf : startsFence l = false := by
      revert h4
      cases startsFence l <;> simp
    rw [hf]
    simp
  · have hf : startsFence l = false := by
      revert h4
      cases startsFence l <;> simp
    rw [hf]
    simp

theorem stepLine_icb_true (f : Str → Str) (b : Bool) (st : QState) (l : Str)
    (h : st.in_code_block = true) : (stepLine f b st l).2 = l := by
  unfold stepLine
  split_ifs with h1 h2 h3 h4 h5
  · rfl
  · rfl
  · rfl
  · rfl
  · rfl
  · exact absurd (Or.inl h) h5

theorem convertLines_get (f : Str → Str) :
    ∀ (ls : List Str) (b : Bool) (st : QState) (i : Nat)
      (h : i < ls.length) (h' : i < (convertLines f b st ls).length),
      (convertLines f b st ls)[i] = ls[i] ∨ (convertLines f b st ls)[i] = f (ls[i])
  | [], _, _, i, h, _ => by simp at h
  | l :: ls, b, st, 0, h, h' => by
    simpa [convertLines] using stepLine_out f b st l
  | l :: ls, b, st, i + 1, h, h' => by
    simp only [convertLines, List.getElem_cons_succ]
    exact convertLines_get f ls false (stepLine f b st l).1 i
      (by simpa using h) (by simpa [convertLines_length] using h')

theorem convertLines_protected (f : Str → Str) :
    ∀ (ls : List Str) (b : Bool) (st : QState) (i : Nat)
      (h : i < ls.length) (h' : i < (convertLines f b st ls).length),
      Bool.xor st.in_code_block (fenceParity (ls.take i)) = true →
      (convertLines f b st ls)[i] = ls[i]
  | [], _, _, i, h, _, _ => by simp at h
  | l :: ls, b, st, 0, h, h', hx => by
    simp only [List.take_zero, fenceParity, Bool.xor_false] at hx
    simpa [convertLines] using stepLine_icb_true f b st l hx
  | l :: ls, b, st, i + 1, h, h', hx => by
    simp only [convertLines, List.getElem_cons_succ]
    apply convertLines_protected f ls false (stepLine f b st l).1 i
      (by simpa using h) (by simpa [convertLines_length] using h')
    rw [stepLine_icb]
    simp only [List.take_succ_cons, fenceParity] at hx
    rw [Bool.xor_assoc]
    exact hx

theorem stepLine_fm (f : Str → Str) (b : Bool) (st : QState) (l : Str)
    (hfm : st.in_front_matter = true) (hl : l ≠ dashes) :
    (stepLine f b st l).2 = l ∧ (stepLine f b st l).1.in_front_matter = true := by
  unfold stepLine
  split_ifs with h1 h2 h3 h4 h5
  · exact absurd h1.2 hl
  · exact absurd h2.2 hl
  · exact absurd h2.2 hl
  · exact ⟨rfl, hfm⟩
  · exact ⟨rfl, hfm⟩
  · exact absurd (Or.inr hfm) h5

theorem convertLines_fm (f : Str → Str) :
    ∀ (ls : List Str) (b : Bool) (st : QState),
      st.in_front_matter = true → (∀ l ∈ ls, l ≠ dashes) →
      convertLines f b st ls = ls
  | [], _, _, _, _ => rfl
  | l :: ls, b, st, hfm, hl => by
    have h := stepLine_fm f b st l hfm (hl l (by simp))
    simp only [convertLines, h.1]
    rw [convertLines_fm f ls false (stepLine f b st l).1 h.2
      (fun x hx => hl x (List.mem_cons_of_mem l hx))]

theorem stepLine_prose (f : Str → Str) (st : QState) (l : Str)
    (hicb : st.in_code_block = false) (hfm : st.in_front_matter = false)
    (hfence : startsFence l = false) :
    stepLine f false st l = (st, f l) := by
  simp [stepLine, hicb, hfm, hfence]

theorem convertLines_plain (f : Str → Str) :
    ∀ (ls : List Str) (st : QState),
      st.in_code_block = false → st.in_front_matter = false →
      (∀ l ∈ ls, startsFence l = false) →
      convertLines f false st ls = ls.map f
  | [], _, _, _, _ => rfl
  | l :: ls, st, hicb, hfm, hf => by
    rw [List.map_cons]
    simp only [convertLines, stepLine_prose f st l hicb hfm (hf l (by simp))]
    rw [convertLines_plain f ls st hicb hfm (fun x hx => hf x (List.mem_cons_of_mem l hx))]

theorem stepLine_cnt (f : Str → Str) (b : Bool) (st : QState) (l : Str)
    (hl : l ≠ dashes) :
    (stepLine f b st l).1.front_matter_count = st.front_matter_count := by
  unfold stepLine
  split_ifs with h1 h2 h3 h4 h5
  · exact absurd h1.2 hl
  · exact absurd h2.2 hl
  · exact absurd h2.2 hl
  · rfl
  · rfl
  · rfl

theorem stepLine_fm_close (f : Str → Str) (st : QState)
    (hfm : st.in_front_matter = true) (hcnt : st.front_matter_count = 1) :
    stepLine f false st dashes
      = (⟨st.in_code_block, false, 2⟩, dashes) := by
  simp [stepLine, hfm, hcnt]

theorem convertLines_fmRun (f : Str → Str) :
    ∀ (mid rest : List Str) (st : QState),
      st.in_front_matter = true → st.front_matter_count = 1 →
      (∀ l ∈ mid, l ≠ dashes) →
      convertLines f false st (mid ++ dashes :: rest)
        = mid ++ dashes :: convertLines f false
            ⟨Bool.xor st.in_code_block (fenceParity mid), false, 2⟩ rest
  | [], rest, st, hfm, hcnt, _ => by
    simp only [List.nil_append, convertLines, stepLine_fm_close f st hfm hcnt,
      fenceParity, Bool.xor_false]
  | l :: mid, rest, st, hfm, hcnt, hl => by
    have hld : l ≠ dashes := hl l (by simp)
    have hstep := stepLine_fm f false st l hfm hld
    have hc := stepLine_cnt f false st l hld
    simp only [List.cons_append, convertLines, hstep.1, List.append_eq]
    rw [convertLines_fmRun f mid rest (stepLine f false st l).1 hstep.2 (hc.trans hcnt)
      (fun x hx => hl x (List.mem_cons_of_mem l hx))]
    rw [stepLine_icb]
    simp only [fenceParity]
    rw [Bool.xor_assoc]

theorem Rcurl_notSQ : ∀ c d, Rcurl c d → c ≠ SQ → d ≠ SQ := by
  intro c d h hc
  rcases h with h | ⟨h1, h2 | h2⟩ | ⟨h1, h2⟩
  · exact h ▸ hc
  · rw [h2]; decide
  · rw [h2]; decide
  · exact absurd h1 hc

theorem Rcurl_notBT : ∀ c d, Rcurl c d → c ≠ BT → d ≠ BT := by
  intro c d h hc
  rcases h with h | ⟨h1, h2 | h2⟩ | ⟨h1, h2⟩
  · exact h ▸ hc
  · rw [h2]; decide
  · rw [h2]; decide
  · rw [h2]; decide

theorem Rcurl_notNL : ∀ c d, Rcurl c d → c ≠ NL → d ≠ NL := by
  intro c d h hc
  rcases h with h | ⟨h1, h2 | h2⟩ | ⟨h1, h2⟩
  · exact h ▸ hc
  · rw [h2]; decide
  · rw [h2]; decide
  · rw [h2]; decide

theorem Rcurl_dash : ∀ c, Rcurl c '-' → c = '-' := by
  intro c h
  rcases h with h | ⟨h1, h2 | h2⟩ | ⟨h1, h2⟩
  · exact h.symm
  · exact absurd h2.symm (by decide)
  · exact absurd h2.symm (by decide)
  · exact absurd h2.symm (by decide)

theorem Rcurl_iffBT : ∀ c d, Rcurl c d → (c = BT ↔ d = BT) := by
  intro c d h
  rcases h with h | ⟨h1, h2 | h2⟩ | ⟨h1, h2⟩
  · rw [h]
  · rw [h1, h2]; decide
  · rw [h1, h2]; decide
  · rw [h1, h2]; decide

theorem Rstr_notNL : ∀ c d, Rstr c d → c ≠ NL → d ≠ NL := by
  intro c d h hc
  rcases h with h | ⟨h1, h2⟩ | ⟨h1, h2⟩
  · exact h ▸ hc
  · rw [h2]; decide
  · rw [h2]; decide

theorem Rstr_dash : ∀ c, Rstr c '-' → c = '-' := by
  intro c h
  rcases h with h | ⟨h1, h2⟩ | ⟨h1, h2⟩
  · exact h.symm
  · exact absurd h2.symm (by decide)
  · exact absurd h2.symm (by decide)

theorem Rstr_iffBT : ∀ c d, Rstr c d → (c = BT ↔ d = BT) := by
  intro c d h
  rcases h with h | ⟨h1, h2⟩ | ⟨h1, h2⟩
  · rw [h]
  · rcases h1 with h1 | h1 <;> rw [h1, h2] <;> decide
  · rcases h1 with h1 | h1 <;> rw [h1, h2] <;> decide

theorem PW_to_dashes {R : Char → Char → Prop} (hR : ∀ c, R c '-' → c = '-') :
    ∀ {l m : Str}, PW R l m → m = dashes → l = dashes := by
  intro l m pw hm
  subst hm
  match l, pw with
  | [], pw => exact False.elim pw
  | [_], pw => exact False.elim pw.2
  | [_, _], pw => exact False.elim pw.2.2
  | _ :: _ :: _ :: _ :: _, pw => exact False.elim pw.2.2.2
  | [c1, c2, c3], pw =>
    obtain ⟨r1, r2, r3, _⟩ := pw
    rw [hR c1 r1, hR c2 r2, hR c3 r3]
    decide

theorem PW_startsFence {R : Char → Char → Prop} (hR : ∀ c d, R c d → (c = BT ↔ d = BT)) :
    ∀ {l m : Str}, PW R l m → startsFence m = startsFence l := by
  intro l m pw
  match l, m, pw with
  | [], [], _ => rfl
  | [], _ :: _, pw => exact False.elim pw
  | _ :: _, [], pw => exact False.elim pw
  | [_], [_], _ => rfl
  | [_], _ :: _ :: _, pw => exact False.elim pw.2
  | _ :: _ :: _, [_], pw => exact False.elim pw.2
  | [_, _], [_, _], _ => rfl
  | [_, _], _ :: _ :: _ :: _, pw => exact False.elim pw.2.2
  | _ :: _ :: _ :: _, [_, _], pw => exact False.elim pw.2.2
  | a :: b :: c :: _, x :: y :: z :: _, pw =>
    obtain ⟨r1, r2, r3, _⟩ := pw
    simp only [startsFence]
    rw [decide_eq_decide.mpr (hR a x r1).symm, decide_eq_decide.mpr (hR b y r2).symm,
      decide_eq_decide.mpr (hR c z r3).symm]

theorem subContraction_noSQ : ∀ t, SQ ∉ t → subContraction t = t := by
  intro t
  induction t using subContraction.induct with
  | case1 => intro _; rfl
  | case2 c => intro _; rfl
  | case3 c d => intro _; rfl
  | case4 a b c rest h ih =>
    intro hm
    exfalso
    apply hm
    rw [← h.1]
    simp
  | case5 a b c rest h ih =>
    intro hm
    simp only [subContraction, if_neg h]
    rw [ih (fun hx => hm (List.mem_cons_of_mem a hx))]

theorem subNIdiomGo_noSQ : ∀ t, SQ ∉ t → subNIdiomGo t = t := by
  intro t
  induction t using subNIdiomGo.induct with
  | case1 s q1 w q2 u rest3 h hu ih =>
    intro hm
    exfalso
    apply hm
    rw [← h.2.1]
    simp
  | case2 s q1 w q2 u rest3 h hu ih =>
    intro hm
    exfalso
    apply hm
    rw [← h.2.1]
    simp
  | case3 s q1 w q2 u rest3 h ih =>
    intro hm
    simp only [subNIdiomGo, if_neg h]
    rw [ih (fun hx => hm (List.mem_cons_of_mem s hx))]
  | case4 s q1 w q2 h =>
    intro hm
    exfalso
    apply hm
    rw [← h.2.1]
    simp
  | case5 s q1 w q2 h ih =>
    intro hm
    simp only [subNIdiomGo, if_neg h]
  | case6 s rest h4 h3 ih =>
    intro hm
    match rest, h4, h3 with
    | [], _, _ => rfl
    | [a], _, _ => rfl
    | [a, b], _, _ => rfl
    | [a, b, c], _, h3 => exact absurd rfl (h3 a b c)
    | a :: b :: c :: d :: e, h4, _ => exact absurd rfl (h4 a b c d e)
  | case7 => intro _; rfl

theorem subNIdiom_noSQ : ∀ t, SQ ∉ t → subNIdiom t = t := by
  intro t hm
  match t with
  | [] => rfl
  | [a] => rfl
  | [a, b] => rfl
  | q1 :: w :: q2 :: rest =>
    have hq : ¬(q1 = SQ ∧ q2 = SQ ∧ isWord w = true) := by
      intro hh
      exact hm (by rw [← hh.1]; simp)
    simp only [subNIdiom, if_neg hq]
    exact subNIdiomGo_noSQ _ hm

theorem subElisionGo_noSQ : ∀ t, SQ ∉ t → subElisionGo t = t := by
  intro t
  induction t using subElisionGo.induct with
  | case1 s q w rest2 h ih =>
    intro hm
    exfalso
    apply hm
    rw [← h.2.1]
    simp
  | case2 s q w rest2 h ih =>
    intro hm
    simp only [subElisionGo, if_neg h]
    rw [ih (fun hx => hm (List.mem_cons_of_mem s hx))]
  | case3 s rest h2 ih =>
    intro hm
    match rest, h2 with
    | [], _ => rfl
    | [a], _ => rfl
    | a :: b :: c, h2 => exact absurd rfl (h2 a b c)
  | case4 => intro _; rfl

theorem subElision_noSQ : ∀ t, SQ ∉ t → subElision t = t := by
  intro t hm
  match t with
  | [] => rfl
  | [a] => rfl
  | q :: w :: rest =>
    have hq : ¬(q = SQ ∧ isWord w = true) := by
      intro hh
      exact hm (by rw [← hh.1]; simp)
    simp only [subElision, if_neg hq]
    exact subElisionGo_noSQ _ hm

theorem subDoubleAux_noDQ_some : ∀ (t : Str) (buf : Str), DQ ∉ t →
    subDoubleAux (some buf) t = DQ :: buf.reverse ++ t
  | [], buf, _ => by simp [subDoubleAux]
  | c :: rest, buf, h => by
    have hc : ¬ c = DQ := fun hh => h (by simp [hh])
    have hr : DQ ∉ rest := fun hh => h (List.mem_cons_of_mem c hh)
    simp only [subDoubleAux, if_neg hc]
    rw [subDoubleAux_noDQ_some rest (c :: buf) hr]
    simp

theorem subDouble_noDQ : ∀ t : Str, DQ ∉ t → subDouble t = t := by
  intro t
  unfold subDouble
  induction t with
  | nil => intro _; rfl
  | cons c rest ih =>
    intro h
    have hc : ¬ c = DQ := fun hh => h (by simp [hh])
    have hr : DQ ∉ rest := fun hh => h (List.mem_cons_of_mem c hh)
    simp only [subDoubleAux, if_neg hc]
    rw [ih hr]

theorem countDQ_subDoubleAux : ∀ (t : Str) (acc : Option Str),
    (∀ buf, acc = some buf → DQ ∉ buf) →
    List.count DQ (subDoubleAux acc t)
      = (List.count DQ t + List.count DQ (accDbl acc)) % 2 := by
  intro t
  induction t with
  | nil =>
    intro acc hacc
    cases acc with
    | none => simp [subDoubleAux, accDbl]
    | some buf =>
      have hb : List.count DQ buf.reverse = 0 := by
        rw [List.count_reverse]
        exact List.count_eq_zero.mpr (hacc buf rfl)
      simp [subDoubleAux, accDbl, List.count_cons, hb]
  | cons c rest ih =>
    intro acc hacc
    cases acc with
    | none =>
      simp only [subDoubleAux, accDbl]
      split
      · rename_i hc
        subst hc
        rw [ih (some []) (by intro b hb; cases hb; simp)]
        simp [accDbl, List.count_cons]
      · rename_i hc
        rw [List.count_cons, List.count_cons]
        rw [ih none (by intro b hb; cases hb)]
        simp [accDbl, hc]
    | some buf =>
      have hb : List.count DQ buf.reverse = 0 := by
        rw [List.count_reverse]
        exact List.count_eq_zero.mpr (hacc buf rfl)
      simp only [subDoubleAux, accDbl]
      split
      · rename_i hc
        subst hc
        have hb0 : List.count DQ buf = 0 := List.count_eq_zero.mpr (hacc buf rfl)
        have hLDQ : (LDQ == DQ) = false := by decide
        have hRDQ : (RDQ == DQ) = false := by decide
        have hDQ : (DQ == DQ) = true := by decide
        simp only [List.count_cons, List.count_append, List.count_reverse, hb0,
          hLDQ, hRDQ, hDQ, if_false, if_true, Nat.add_zero, Nat.zero_add]
        rw [ih none (by intro b hb; cases hb)]
        simp [accDbl]
        omega
      · rename_i hc
        rw [ih (some (c :: buf)) (by
          intro b hb
          cases hb
          intro hx
          rcases List.mem_cons.mp hx with h1 | h2
          · exact hc h1.symm
          · exact hacc buf rfl h2)]
        simp [accDbl, List.count_cons, List.count_reverse, hc,
          List.count_eq_zero.mpr (hacc buf rfl)]

theorem countDQ_subDouble (t : Str) :
    List.count DQ (subDouble t) = List.count DQ t % 2 := by
  unfold subDouble
  rw [countDQ_subDoubleAux t none (by intro b hb; cases hb)]
  simp [accDbl]

theorem subDouble_countLe : ∀ t : Str, List.count DQ t ≤ 1 → subDouble t = t := by
  intro t
  induction t with
  | nil => intro _; rfl
  | cons c rest ih =>
    intro h
    by_cases hc : c = DQ
    · subst hc
      have hz : List.count DQ rest = 0 := by
        rw [List.count_cons] at h
        simp at h
        omega
      have hnr : DQ ∉ rest := List.count_eq_zero.mp hz
      unfold subDouble
      simp only [subDoubleAux, if_pos rfl]
      rw [subDoubleAux_noDQ_some rest [] hnr]
      rfl
    · unfold subDouble
      simp only [subDoubleAux, if_neg hc]
      have : List.count DQ rest ≤ 1 := by
        rw [List.count_cons] at h
        simp [hc] at h
        omega
      have := ih this
      unfold subDouble at this
      rw [this]

theorem curlText_noSQ (l : Str) (hSQ : SQ ∉ l) :
    smartquotes.convert_quotes_in_text l = subDouble l := by
  have h1 : SQ ∉ subDouble l := PW_not_mem Rcurl_notSQ (pw_subDouble l) hSQ
  unfold smartquotes.convert_quotes_in_text
  rw [subContraction_noSQ _ h1, subNIdiom_noSQ _ h1, subElision_noSQ _ h1]

theorem curlText_noSQ_idem (l : Str) (hSQ : SQ ∉ l) :
    smartquotes.convert_quotes_in_text (smartquotes.convert_quotes_in_text l)
      = smartquotes.convert_quotes_in_text l := by
  rw [curlText_noSQ l hSQ]
  rw [curlText_noSQ (subDouble l) (PW_not_mem Rcurl_notSQ (pw_subDouble l) hSQ)]
  apply subDouble_countLe
  rw [countDQ_subDouble]
  omega

theorem isCodePart_noBT (l : Str) (h : BT ∉ l) : isCodePart l = false := by
  cases l with
  | nil => rfl
  | cons c rest =>
    have hc : ¬ c = BT := fun hh => h (by simp [hh])
    simp [isCodePart, hc]

theorem curlLine_noBT (l : Str) (h : BT ∉ l) :
    smartquotes.convert_prose_line l = smartquotes.convert_quotes_in_text l := by
  unfold smartquotes.convert_prose_line
  rw [splitInline_of_not_mem l h]
  simp [smartquotes.partTransform, isCodePart_noBT l h]

theorem strLine_noBT (l : Str) (h : BT ∉ l) :
    straightquotes.convert_prose_line l = straightquotes.straighten_quotes l := by
  unfold straightquotes.convert_prose_line
  rw [splitInline_of_not_mem l h]
  simp [straightquotes.partTransform, isCodePart_noBT l h]

theorem startsFence_noBT (l : Str) (h : BT ∉ l) : startsFence l = false := by
  match l with
  | [] => rfl
  | [_] => rfl
  | [_, _] => rfl
  | a :: b :: c :: rest =>
    have ha : ¬ a = BT := fun hh => h (by simp [hh])
    simp [startsFence, ha]

theorem splitOnChar_chars (ch : Char) :
    ∀ (t : Str) (l : Str), l ∈ splitOnChar ch t → ∀ c ∈ l, c ∈ t
  | [], l => by
    intro h c hc
    simp [splitOnChar] at h
    subst h
    simp at hc
  | x :: rest, l => by
    intro h c hc
    simp only [splitOnChar] at h
    split at h
    · rcases List.mem_cons.mp h with h1 | h2
      · subst h1; simp at hc
      · exact List.mem_cons_of_mem x (splitOnChar_chars ch rest l h2 c hc)
    · cases hsp : splitOnChar ch rest with
      | nil => exact absurd hsp (splitOnChar_ne_nil ch rest)
      | cons p ps =>
        rw [hsp] at h
        simp only [consHead] at h
        rcases List.mem_cons.mp h with h1 | h2
        · subst h1
          rcases List.mem_cons.mp hc with h3 | h4
          · simp [h3]
          · exact List.mem_cons_of_mem x
              (splitOnChar_chars ch rest p (hsp ▸ List.mem_cons_self p ps) c h4)
        · exact List.mem_cons_of_mem x
            (splitOnChar_chars ch rest l (hsp ▸ List.mem_cons_of_mem p h2) c hc)

theorem stepLine_first_prose (f : Str → Str) (b : Bool) (st : QState) (l : Str)
    (hicb : st.in_code_block = false) (hfm : st.in_front_matter = false)
    (hfence : startsFence l = false) (hl : l ≠ dashes) :
    stepLine f b st l = (st, f l) := by
  simp [stepLine, hicb, hfm, hfence, hl]

theorem convertLines_docPlain (f : Str → Str) (l0 : Str) (rest : List Str)
    (hl0 : l0 ≠ dashes) (hf : ∀ l ∈ l0 :: rest, startsFence l = false) :
    convertLines f true initState (l0 :: rest) = (l0 :: rest).map f := by
  simp only [convertLines,
    stepLine_first_prose f true initState l0 rfl rfl (hf l0 (by simp)) hl0]
  rw [convertLines_plain f rest initState rfl rfl
    (fun x hx => hf x (List.mem_cons_of_mem l0 hx))]
  simp

theorem curlLine_idem (l : Str) (hBT : BT ∉ l) (hSQ : SQ ∉ l) :
    smartquotes.convert_prose_line (smartquotes.convert_prose_line l)
      = smartquotes.convert_prose_line l := by
  rw [curlLine_noBT l hBT]
  rw [curlLine_noBT _ (PW_not_mem Rcurl_notBT (pw_curlText l) hBT)]
  exact curlText_noSQ_idem l hSQ

/-- C1 (counterexample): curl is not idempotent on all prose inputs.  On
the prose document consisting of a word character, a straight single
quote, a word character, a straight single quote and a word character, the
first pass converts only the first quote (the second match attempt resumes
after the consumed trailing word character), and the second pass then
converts the second quote, so applying `convert_quotes` twice differs from
applying it once. -/
theorem C1_counterexample :
    smartquotes.convert_quotes (smartquotes.convert_quotes ['a', SQ, 'b', SQ, 'c'])
      ≠ smartquotes.convert_quotes ['a', SQ, 'b', SQ, 'c'] := by decide

/-- C1 (amended): curl is idempotent on every prose document that contains
no straight single quote: if a document contains no backtick and no
straight single quote, and its first line is not the front-matter marker,
then applying `smartquotes.convert_quotes` twice gives the same result as
applying it once.  (The straight-single-quote exclusion is forced by the
counterexample: overlapping word-quote-word matches make the apostrophe
rules non-idempotent.) -/
theorem C1_amended (x : Str) (hBT : BT ∉ x) (hSQ : SQ ∉ x)
    (hd : (splitNL x).head? ≠ some dashes) :
    smartquotes.convert_quotes (smartquotes.convert_quotes x)
      = smartquotes.convert_quotes x := by
  cases hsp : splitNL x with
  | nil => exact absurd hsp (splitOnChar_ne_nil NL x)
  | cons l0 rest =>
    have hsp' : splitOnChar NL x = l0 :: rest := hsp
    have hmemBT : ∀ l ∈ l0 :: rest, BT ∉ l := by
      intro l hl hc
      exact hBT (splitOnChar_chars NL x l (hsp' ▸ hl) BT hc)
    have hmemSQ : ∀ l ∈ l0 :: rest, SQ ∉ l := by
      intro l hl hc
      exact hSQ (splitOnChar_chars NL x l (hsp' ▸ hl) SQ hc)
    have hmemNL : ∀ l ∈ l0 :: rest, NL ∉ l := by
      intro l hl
      exact splitOnChar_not_mem NL x l (hsp' ▸ hl)
    have hfence : ∀ l ∈ l0 :: rest, startsFence l = false := by
      intro l hl
      exact startsFence_noBT l (hmemBT l hl)
    have hl0d : l0 ≠ dashes := by
      rw [hsp] at hd
      simp only [List.head?_cons] at hd
      intro hh
      exact hd (by rw [hh])
    have E1 : smartquotes.convert_quotes x
        = joinNL ((l0 :: rest).map smartquotes.convert_prose_line) := by
      unfold smartquotes.convert_quotes
      rw [hsp, convertLines_docPlain _ l0 rest hl0d hfence]
    have hmapNL : ∀ l ∈ (l0 :: rest).map smartquotes.convert_prose_line, NL ∉ l := by
      intro l hl
      rcases List.mem_map.mp hl with ⟨l2, hl2, rfl⟩
      exact PW_not_mem Rcurl_notNL (pw_curlLine l2) (hmemNL l2 hl2)
    have E2 : splitNL (smartquotes.convert_quotes x)
        = (l0 :: rest).map smartquotes.convert_prose_line := by
      rw [E1]
      exact splitNL_joinNL _ (by simp) hmapNL
    show joinNL (convertLines smartquotes.convert_prose_line true initState
        (splitNL (smartquotes.convert_quotes x))) = smartquotes.convert_quotes x
    rw [E2]
    simp only [List.map_cons]
    rw [convertLines_docPlain _ _ _
      (fun hh => hl0d (PW_to_dashes Rcurl_dash (pw_curlLine l0) hh))
      (by
        intro l hl
        simp only [← List.map_cons] at hl
        rcases List.mem_map.mp hl with ⟨l2, hl2, rfl⟩
        rw [PW_startsFence Rcurl_iffBT (pw_curlLine l2)]
        exact hfence l2 hl2)]
    rw [← List.map_cons, List.map_map]
    have hcongr : ∀ l ∈ l0 :: rest,
        (smartquotes.convert_prose_line ∘ smartquotes.convert_prose_line) l
          = smartquotes.convert_prose_line l := by
      intro l hl
      exact curlLine_idem l (hmemBT l hl) (hmemSQ l hl)
    rw [List.map_congr_left hcongr]
    exact E1.symm

/-- C1 (witness): the amended idempotence applied to the concrete prose
document with a paired double quote and a contraction-free text. -/
theorem C1_witness :
    smartquotes.convert_quotes
        (smartquotes.convert_quotes ['H', 'i', ' ', DQ, 'y', 'o', DQ])
      = smartquotes.convert_quotes ['H', 'i', ' ', DQ, 'y', 'o', DQ] :=
  C1_amended ['H', 'i', ' ', DQ, 'y', 'o', DQ] (by decide) (by decide) (by decide)

theorem convQ_unclosedFM (f : Str → Str) (x : Str) (rest : List Str)
    (hsp : splitNL x = dashes :: rest) (hr : ∀ l ∈ rest, l ≠ dashes) :
    joinNL (convertLines f true initState (splitNL x)) = x := by
  rw [hsp]
  have hstep : stepLine f true initState dashes = (⟨false, true, 1⟩, dashes) := by
    simp [stepLine, initState]
  simp only [convertLines, hstep]
  rw [convertLines_fm f rest false ⟨false, true, 1⟩ rfl hr]
  rw [← hsp, joinNL_splitNL]

/-- C9: a document whose first line is the front-matter marker and in which
no later line equals the marker is returned unchanged by both conversion
directions: every line after the opening marker stays in the front-matter
zone and is passed through verbatim. -/
theorem C9_unclosed_front_matter (x : Str) (l0 : Str) (rest : List Str)
    (hsp : splitNL x = l0 :: rest) (h0 : l0 = dashes)
    (hr : ∀ l ∈ rest, l ≠ dashes) :
    smartquotes.convert_quotes x = x ∧ straightquotes.convert_quotes x = x := by
  subst h0
  exact ⟨convQ_unclosedFM smartquotes.convert_prose_line x rest hsp hr,
    convQ_unclosedFM straightquotes.convert_prose_line x rest hsp hr⟩

/-- C9 (witness): the unclosed-front-matter theorem applied to a concrete
document whose front matter is never closed. -/
theorem C9_witness :
    smartquotes.convert_quotes ['-', '-', '-', NL, 't', DQ, 'x', DQ]
        = ['-', '-', '-', NL, 't', DQ, 'x', DQ]
      ∧ straightquotes.convert_quotes ['-', '-', '-', NL, 't', DQ, 'x', DQ]
        = ['-', '-', '-', NL, 't', DQ, 'x', DQ] :=
  C9_unclosed_front_matter ['-', '-', '-', NL, 't', DQ, 'x', DQ]
    dashes [['t', DQ, 'x', DQ]] (by decide) rfl (by decide)

/-- C3 (counterexample): a front-matter line beginning with a code fence
marker does affect how later lines are classified.  In the first document
the front matter contains a fence line, and the double-quoted line after
the closing marker is left unchanged (it is classified as being inside a
code block); in the second document, identical except that the fence line
is replaced by a plain word, the same final line is converted. -/
theorem C3_counterexample :
    smartquotes.convert_quotes
        ['-', '-', '-', NL, BT, BT, BT, 'y', NL, '-', '-', '-', NL, DQ, 'q', DQ]
      = ['-', '-', '-', NL, BT, BT, BT, 'y', NL, '-', '-', '-', NL, DQ, 'q', DQ]
    ∧ smartquotes.convert_quotes
        ['-', '-', '-', NL, 't', NL, '-', '-', '-', NL, DQ, 'q', DQ]
      = ['-', '-', '-', NL, 't', NL, '-', '-', '-', NL, LDQ, 'q', RDQ]
    ∧ ([LDQ, 'q', RDQ] : Str) ≠ [DQ, 'q', DQ] := by
  refine ⟨by decide, by decide, by decide⟩

/-- C3 (amended): while the classifier is inside front matter, the only
line that changes the front-matter state is a line equal exactly to the
marker, and every front-matter line is emitted verbatim; however a
front-matter line beginning with a code fence marker toggles the
code-block flag, so the lines after the closing marker are classified
starting from the code-block zone exactly when the front matter contains
an odd number of fence lines (and from the prose zone when even). -/
theorem C3_amended (f : Str → Str) (mid rest : List Str)
    (hm : ∀ l ∈ mid, l ≠ dashes) :
    convertLines f true initState (dashes :: (mid ++ dashes :: rest))
      = dashes :: mid ++ dashes
          :: convertLines f false ⟨fenceParity mid, false, 2⟩ rest := by
  have hstep : stepLine f true initState dashes = (⟨false, true, 1⟩, dashes) := by
    simp [stepLine, initState]
  simp only [convertLines, hstep]
  rw [convertLines_fmRun f mid rest ⟨false, true, 1⟩ rfl rfl hm]
  simp

/-- C3 (witness): the amended classification theorem applied to a concrete
front matter containing one fence line; the trailing line is then
processed from the code-block zone. -/
theorem C3_witness :
    convertLines smartquotes.convert_prose_line true initState
        (dashes :: ([[BT, BT, BT, 'y']] ++ dashes :: [[DQ, 'q', DQ]]))
      = dashes :: [[BT, BT, BT, 'y']] ++ dashes
          :: convertLines smartquotes.convert_prose_line false
              ⟨fenceParity [[BT, BT, BT, 'y']], false, 2⟩ [[DQ, 'q', DQ]] :=
  C3_amended smartquotes.convert_prose_line [[BT, BT, BT, 'y']] [[DQ, 'q', DQ]]
    (by decide)

theorem pairSegs_consHead (c : Char) : ∀ L : List Str,
    pairSegs (consHead c L) = c :: pairSegs L
  | [] => rfl
  | [p] => rfl
  | [p, t] => by simp [consHead, pairSegs]
  | p :: t :: u :: rest => by simp [consHead, pairSegs]

theorem firstSplit (a : Char) : ∀ l : Str, a ∈ l →
    ∃ s r : Str, l = s ++ a :: r ∧ a ∉ s
  | [], h => by simp at h
  | c :: rest, h => by
    by_cases hc : c = a
    · exact ⟨[], rest, by simp [hc], by simp⟩
    · have : a ∈ rest := by
        rcases List.mem_cons.mp h with h1 | h2
        · exact absurd h1.symm hc
        · exact h2
      obtain ⟨s, r, hsr, hns⟩ := firstSplit a rest this
      refine ⟨c :: s, r, by simp [hsr], ?_⟩
      intro hmem
      rcases List.mem_cons.mp hmem with h1 | h2
      · exact hc h1.symm
      · exact hns h2

theorem subDoubleAux_someSplit : ∀ (s : Str) (r buf : Str), DQ ∉ s →
    subDoubleAux (some buf) (s ++ DQ :: r)
      = LDQ :: buf.reverse ++ s ++ RDQ :: subDoubleAux none r
  | [], r, buf, _ => by simp [subDoubleAux]
  | c :: s, r, buf, h => by
    have hc : ¬ c = DQ := fun hh => h (by simp [hh])
    have hs : DQ ∉ s := fun hh => h (List.mem_cons_of_mem c hh)
    simp only [List.cons_append, subDoubleAux, if_neg hc, List.append_eq]
    rw [subDoubleAux_someSplit s r (c :: buf) hs]
    simp

theorem subDouble_pairSegs_aux : ∀ (n : Nat) (t : Str), t.length ≤ n →
    subDoubleAux none t = pairSegs (splitOnChar DQ t) := by
  intro n
  induction n with
  | zero =>
    intro t ht
    cases t with
    | nil => rfl
    | cons c rest => simp at ht
  | succ n ih =>
    intro t ht
    cases t with
    | nil => rfl
    | cons c rest =>
      by_cases hc : c = DQ
      · subst hc
        by_cases hr : DQ ∈ rest
        · obtain ⟨s, r, hsr, hns⟩ := firstSplit DQ rest hr
          subst hsr
          rw [show subDoubleAux none (DQ :: (s ++ DQ :: r))
              = subDoubleAux (some []) (s ++ DQ :: r) by simp [subDoubleAux]]
          rw [subDoubleAux_someSplit s r [] hns]
          rw [show splitOnChar DQ (DQ :: (s ++ DQ :: r))
              = [] :: splitOnChar DQ (s ++ DQ :: r) by simp [splitOnChar]]
          rw [splitOnChar_append DQ s r hns]
          cases hq : splitOnChar DQ r with
          | nil => exact absurd hq (splitOnChar_ne_nil DQ r)
          | cons u ts =>
            simp only [pairSegs, List.nil_append]
            rw [← hq, ← ih r (by
              simp only [List.length_cons, List.length_append] at ht
              omega)]
            simp
        · rw [show subDoubleAux none (DQ :: rest)
              = subDoubleAux (some []) rest by simp [subDoubleAux]]
          rw [subDoubleAux_noDQ_some rest [] hr]
          rw [show splitOnChar DQ (DQ :: rest)
              = [] :: splitOnChar DQ rest by simp [splitOnChar]]
          rw [splitOnChar_of_not_mem DQ rest hr]
          simp [pairSegs]
      · by_cases hr : DQ ∈ rest
        all_goals {
          rw [show subDoubleAux none (c :: rest)
              = c :: subDoubleAux none rest by simp [subDoubleAux, hc]]
          rw [ih rest (by simp only [List.length_cons] at ht; omega)]
          rw [show splitOnChar DQ (c :: rest)
              = consHead c (splitOnChar DQ rest) by simp [splitOnChar, hc]]
          rw [pairSegs_consHead]
        }

/-- C5: the double-quote pairing rule rewrites every substring delimited
by two straight double quotes with no double quote inside, replacing the
opening quote by `LDQ` and the closing one by `RDQ` and leaving the
enclosed text unchanged, while a lone unmatched straight double quote
stays straight: `subDouble`, translated from the source regex, agrees on
every input with `pairSegs`, written from the spec wording over the
quote-separated segments.  In particular converting the document
containing He said "hello" yields He said with curly quotes. -/
theorem C5_double_pairing :
    (∀ t : Str, subDouble t = pairSegs (splitOnChar DQ t))
    ∧ smartquotes.convert_quotes
        ['H', 'e', ' ', 's', 'a', 'i', 'd', ' ', DQ, 'h', 'e', 'l', 'l', 'o', DQ]
      = ['H', 'e', ' ', 's', 'a', 'i', 'd', ' ', LDQ, 'h', 'e', 'l', 'l', 'o', RDQ] :=
  ⟨fun t => subDouble_pairSegs_aux t.length t le_rfl, by decide⟩

/-- C6: the straighten direction is an unconditional one-to-one character
replacement on every prose span: `straighten_quotes` equals mapping
`mapChar` over the span, `mapChar` sends the two curly double quotes to
the straight double quote and the two curly single quotes to the straight
single quote and fixes every other character, a prose line without
backticks is transformed exactly by that map, and the conversion of the
document curly “quotes” and ‘ones’ gives the straight form. -/
theorem C6_straighten_map :
    (∀ t : Str, straightquotes.straighten_quotes t = t.map mapChar)
    ∧ (mapChar LDQ = DQ ∧ mapChar RDQ = DQ ∧ mapChar LSQ = SQ ∧ mapChar RSQ = SQ)
    ∧ (∀ c : Char, c ≠ LDQ → c ≠ RDQ → c ≠ LSQ → c ≠ RSQ → mapChar c = c)
    ∧ (∀ l : Str, BT ∉ l → straightquotes.convert_prose_line l = l.map mapChar)
    ∧ straightquotes.convert_quotes
        ['c', 'u', 'r', 'l', 'y', ' ', LDQ, 'q', 'u', 'o', 't', 'e', 's', RDQ,
          ' ', 'a', 'n', 'd', ' ', LSQ, 'o', 'n', 'e', 's', RSQ]
      = ['c', 'u', 'r', 'l', 'y', ' ', DQ, 'q', 'u', 'o', 't', 'e', 's', DQ,
          ' ', 'a', 'n', 'd', ' ', SQ, 'o', 'n', 'e', 's', SQ] := by
  refine ⟨straighten_eq_map, ⟨by decide, by decide, by decide, by decide⟩, ?_, ?_, by decide⟩
  · intro c h1 h2 h3 h4
    simp [mapChar, h1, h2, h3, h4]
  · intro l h
    rw [strLine_noBT l h, straighten_eq_map]

/-- C6 (witness): the characterization applied to a concrete character and
a concrete backtick-free prose line. -/
theorem C6_witness :
    mapChar 'x' = 'x'
    ∧ straightquotes.convert_prose_line ['o', RSQ] = ['o', RSQ].map mapChar := by
  refine ⟨C6_straighten_map.2.2.1 'x' (by decide) (by decide) (by decide) (by decide), ?_⟩
  exact C6_straighten_map.2.2.2.1 ['o', RSQ] (by decide)

/-- C8 (counterexample): invoked with no arguments at all (an argument
vector holding only the program name), `main` prints the module docstring
to standard output, not to the error stream, and exits 1; this refutes the
claim that the no-file-argument report always goes to the error stream. -/
theorem C8_counterexample :
    smartquotes.usageCheck [['s', 'q']] = some ⟨OutChannel.out, 1⟩
    ∧ straightquotes.usageCheck [['s', 'q']] = some ⟨OutChannel.out, 1⟩
    ∧ OutChannel.out ≠ OutChannel.err := by
  refine ⟨by decide, by decide, by decide⟩

/-- C8 (amended): whenever no file argument is supplied (every argument
after the program name starts with two dashes, which covers the case of no
arguments at all), both programs terminate with exit status 1; the message
goes to the error stream when at least one argument was given, while a
bare invocation prints the usage text to standard output instead. -/
theorem C8_amended (argv : List Str)
    (h : (argv.drop 1).filter (fun a => !(startsDashDash a)) = []) :
    (∃ e, smartquotes.usageCheck argv = some e ∧ e.code = 1)
    ∧ (∃ e, straightquotes.usageCheck argv = some e ∧ e.code = 1)
    ∧ (2 ≤ argv.length → smartquotes.usageCheck argv = some ⟨OutChannel.err, 1⟩
        ∧ straightquotes.usageCheck argv = some ⟨OutChannel.err, 1⟩)
    ∧ (argv.length < 2 → smartquotes.usageCheck argv = some ⟨OutChannel.out, 1⟩
        ∧ straightquotes.usageCheck argv = some ⟨OutChannel.out, 1⟩) := by
  by_cases hlen : argv.length < 2
  · refine ⟨⟨⟨OutChannel.out, 1⟩, ?_, rfl⟩, ⟨⟨OutChannel.out, 1⟩, ?_, rfl⟩, ?_, ?_⟩
    · simp [smartquotes.usageCheck, hlen]
    · simp [straightquotes.usageCheck, hlen]
    · intro h2
      omega
    · intro _
      exact ⟨by simp [smartquotes.usageCheck, hlen],
        by simp [straightquotes.usageCheck, hlen]⟩
  · have h2 : ∀ x ∈ argv.tail, startsDashDash x = true := by simpa using h
    refine ⟨⟨⟨OutChannel.err, 1⟩, ?_, rfl⟩, ⟨⟨OutChannel.err, 1⟩, ?_, rfl⟩, ?_, ?_⟩
    · simp [smartquotes.usageCheck, hlen]
      exact h2
    · simp [straightquotes.usageCheck, hlen]
      exact h2
    · intro _
      exact ⟨by simp [smartquotes.usageCheck, hlen]; exact h2,
        by simp [straightquotes.usageCheck, hlen]; exact h2⟩
    · intro hcon
      omega

/-- C8 (witness): a program name plus one flag argument, with no file
argument: both checks report to the error stream and exit 1. -/
theorem C8_witness :
    smartquotes.usageCheck [['s'], ['-', '-', 'c']] = some ⟨OutChannel.err, 1⟩
    ∧ straightquotes.usageCheck [['s'], ['-', '-', 'c']] = some ⟨OutChannel.err, 1⟩ :=
  (C8_amended [['s'], ['-', '-', 'c']] (by decide)).2.2.1 (by decide)

theorem isWord_SQ : isWord SQ = false := by decide

theorem isSpace_notWord (c : Char) (h : isSpace c = true) : isWord c = false := by
  unfold isSpace Char.isWhitespace at h
  simp only [Bool.or_eq_true, decide_eq_true_eq] at h
  rcases h with ((h | h) | h) | h <;> subst h <;> decide

theorem subContraction_presuffix : ∀ (pre : Str) (w : Char), SQ ∉ pre →
    (pre = [] ∨ ∃ s, pre.getLast? = some s ∧ isSpace s = true) →
    subContraction (pre ++ [SQ, w, SQ]) = pre ++ [SQ, w, SQ]
  | [], w, _, _ => by
    simp [subContraction, isWord_SQ]
  | [a], w, hpre, hlast => by
    have ha : isWord a = false := by
      rcases hlast with h | ⟨s, hs, hsp⟩
      · exact absurd h (by simp)
      · simp only [List.getLast?_singleton, Option.some_inj] at hs
        exact hs ▸ isSpace_notWord s hsp
    simp [subContraction, ha, isWord_SQ]
  | a :: b :: pre, w, hpre, hlast => by
    have hb : ¬ b = SQ := fun hh => hpre (by simp [hh])
    have htail : SQ ∉ b :: pre := fun hh => hpre (List.mem_cons_of_mem a hh)
    have hlast2 : (b :: pre) = [] ∨
        ∃ s, (b :: pre).getLast? = some s ∧ isSpace s = true := by
      rcases hlast with h | ⟨s, hs, hsp⟩
      · exact absurd h (by simp)
      · exact Or.inr ⟨s, by rwa [List.getLast?_cons_cons] at hs, hsp⟩
    have ih := subContraction_presuffix (b :: pre) w htail hlast2
    cases pre with
    | nil =>
      have hc : ¬(b = SQ ∧ isWord a = true ∧ isWord SQ = true) := fun hh => hb hh.1
      simp only [List.cons_append, List.nil_append] at ih ⊢
      rw [subContraction.eq_4, if_neg hc, ih]
    | cons c pre2 =>
      have hc : ¬(b = SQ ∧ isWord a = true ∧ isWord c = true) := fun hh => hb hh.1
      simp only [List.cons_append] at ih ⊢
      rw [subContraction.eq_4, if_neg hc, ih]

theorem subNIdiomGo_presuffix : ∀ (pre : Str) (w : Char), isWord w = true →
    SQ ∉ pre →
    (∃ s, pre.getLast? = some s ∧ isSpace s = true) →
    subNIdiomGo (pre ++ [SQ, w, SQ]) = pre ++ [RSQ, w, RSQ]
  | [], w, _, _, hlast => by
    obtain ⟨s, hs, _⟩ := hlast
    simp at hs
  | [a], w, hw, hpre, hlast => by
    obtain ⟨s, hs, hsp⟩ := hlast
    simp only [List.getLast?_singleton, Option.some_inj] at hs
    subst hs
    simp only [List.cons_append, List.nil_append]
    rw [subNIdiomGo.eq_2, if_pos ⟨hsp, rfl, rfl, hw⟩]
  | [a, b], w, hw, hpre, hlast => by
    obtain ⟨s, hs, hsp⟩ := hlast
    rw [List.getLast?_cons_cons, List.getLast?_singleton, Option.some_inj] at hs
    subst hs
    have hb : ¬ b = SQ := fun hh => hpre (by simp [hh])
    have ih := subNIdiomGo_presuffix [b] w hw
      (fun hh => hpre (List.mem_cons_of_mem a hh)) ⟨b, by simp, hsp⟩
    simp only [List.cons_append, List.nil_append] at ih ⊢
    rw [subNIdiomGo.eq_1, if_neg (fun hh => hb hh.2.1), ih]
  | a :: b :: c :: pre, w, hw, hpre, hlast => by
    have hb : ¬ b = SQ := fun hh => hpre (by simp [hh])
    obtain ⟨s, hs, hsp⟩ := hlast
    rw [List.getLast?_cons_cons] at hs
    have htail : SQ ∉ b :: c :: pre := fun hh => hpre (List.mem_cons_of_mem a hh)
    have ih := subNIdiomGo_presuffix (b :: c :: pre) w hw htail ⟨s, hs, hsp⟩
    cases pre with
    | nil =>
      simp only [List.cons_append, List.nil_append] at ih ⊢
      rw [subNIdiomGo.eq_1, if_neg (fun hh => hb hh.2.1), ih]
    | cons d pre2 =>
      cases pre2 with
      | nil =>
        simp only [List.cons_append, List.nil_append] at ih ⊢
        rw [subNIdiomGo.eq_1, if_neg (fun hh => hb hh.2.1), ih]
      | cons e pre3 =>
        simp only [List.cons_append] at ih ⊢
        rw [subNIdiomGo.eq_1, if_neg (fun hh => hb hh.2.1), ih]

theorem subNIdiom_presuffix (pre : Str) (w : Char) (hw : isWord w = true)
    (hpre : SQ ∉ pre)
    (hlast : pre = [] ∨ ∃ s, pre.getLast? = some s ∧ isSpace s = true) :
    subNIdiom (pre ++ [SQ, w, SQ]) = pre ++ [RSQ, w, RSQ] := by
  cases pre with
  | nil =>
    simp only [List.nil_append, subNIdiom]
    split
    · rfl
    · rename_i h
      exact absurd ⟨trivial, trivial, hw⟩ h
  | cons a pre2 =>
    have ha : ¬ a = SQ := fun hh => hpre (by simp [hh])
    have hlast2 : ∃ s, (a :: pre2).getLast? = some s ∧ isSpace s = true := by
      rcases hlast with h | h
      · exact absurd h (by simp)
      · exact h
    have hgo := subNIdiomGo_presuffix (a :: pre2) w hw hpre hlast2
    cases pre2 with
    | nil =>
      simp only [List.cons_append, List.nil_append] at hgo ⊢
      simp only [subNIdiom]
      split
      · rename_i h
        exact absurd h.1 ha
      · exact hgo
    | cons b pre3 =>
      cases pre3 with
      | nil =>
        simp only [List.cons_append, List.nil_append] at hgo ⊢
        simp only [subNIdiom]
        split
        · rename_i h
          exact absurd h.1 ha
        · exact hgo
      | cons c pre4 =>
        simp only [List.cons_append] at hgo ⊢
        simp only [subNIdiom]
        split
        · rename_i h
          exact absurd h.1 ha
        · exact hgo

theorem curlText_presuffix (pre : Str) (w : Char) (hw : isWord w = true)
    (hSQ : SQ ∉ pre) (hDQ : DQ ∉ pre)
    (hlast : pre = [] ∨ ∃ s, pre.getLast? = some s ∧ isSpace s = true) :
    smartquotes.convert_quotes_in_text (pre ++ [SQ, w, SQ]) = pre ++ [RSQ, w, RSQ] := by
  have hwSQ : ¬ DQ = w := fun hh => by
    rw [← hh] at hw
    exact absurd hw (by decide)
  have hwRS : ¬ SQ = w := fun hh => by
    rw [← hh] at hw
    exact absurd hw (by decide)
  have hDQall : DQ ∉ pre ++ [SQ, w, SQ] := by
    intro hm
    rcases List.mem_append.mp hm with h | h
    · exact hDQ h
    · simp only [List.mem_cons, List.mem_singleton] at h
      rcases h with h | h | h
      · exact absurd h (by decide)
      · exact hwSQ h
      · exact absurd h (by decide)
  unfold smartquotes.convert_quotes_in_text
  rw [subDouble_noDQ _ hDQall]
  rw [subContraction_presuffix pre w hSQ hlast]
  rw [subNIdiom_presuffix pre w hw hSQ hlast]
  apply subElision_noSQ
  intro hm
  rcases List.mem_append.mp hm with h | h
  · exact hSQ h
  · simp only [List.mem_cons, List.mem_singleton] at h
    rcases h with h | h | h
    · exact absurd h (by decide)
    · exact hwRS h
    · exact absurd h (by decide)

/-- C4 (counterexample): the paired-single-quote idiom does not always
rewrite both quote characters.  In the prose text consisting of two
adjacent quoted single letters separated by one space, the idiom match on
the first occurrence consumes the shared space, so the second occurrence
is skipped; the elision rule then converts its opening quote only, and the
final straight quote survives both. -/
theorem C4_counterexample :
    smartquotes.convert_quotes [SQ, 'a', SQ, ' ', SQ, 'b', SQ]
      = [RSQ, 'a', RSQ, ' ', RSQ, 'b', SQ]
    ∧ ([RSQ, 'a', RSQ, ' ', RSQ, 'b', SQ] : Str)
      ≠ [RSQ, 'a', RSQ, ' ', RSQ, 'b', RSQ] :=
  ⟨by decide, by decide⟩

/-- C4 (amended): a straight single quote, one word character and a
straight single quote at the end of a prose span, preceded by a prefix
that contains no quote characters and ends in whitespace (or is empty),
has BOTH quote characters rewritten to `RSQ` — the idiom rule runs before
the word-initial-elision rule, which alone would convert only the opening
quote; in particular the document rock 'n' roll converts to rock ’n’ roll
with both apostrophes curled. -/
theorem C4_amended :
    (∀ (pre : Str) (w : Char), isWord w = true → SQ ∉ pre → DQ ∉ pre →
      (pre = [] ∨ ∃ s, pre.getLast? = some s ∧ isSpace s = true) →
      smartquotes.convert_quotes_in_text (pre ++ [SQ, w, SQ])
        = pre ++ [RSQ, w, RSQ])
    ∧ smartquotes.convert_quotes
        ['r', 'o', 'c', 'k', ' ', SQ, 'n', SQ, ' ', 'r', 'o', 'l', 'l']
      = ['r', 'o', 'c', 'k', ' ', RSQ, 'n', RSQ, ' ', 'r', 'o', 'l', 'l'] :=
  ⟨fun pre w hw h1 h2 h3 => curlText_presuffix pre w hw h1 h2 h3, by decide⟩

/-- C4 (witness): the amended idiom statement applied to the prefix
rock-space and the word character n. -/
theorem C4_witness :
    smartquotes.convert_quotes_in_text
        (['r', 'o', 'c', 'k', ' '] ++ [SQ, 'n', SQ])
      = ['r', 'o', 'c', 'k', ' '] ++ [RSQ, 'n', RSQ] :=
  C4_amended.1 ['r', 'o', 'c', 'k', ' '] 'n' (by decide) (by decide) (by decide)
    (Or.inr ⟨' ', by decide, by decide⟩)

theorem convertLines_mem (f : Str → Str) :
    ∀ (ls : List Str) (b : Bool) (st : QState) (l' : Str),
      l' ∈ convertLines f b st ls → ∃ l ∈ ls, l' = l ∨ l' = f l
  | [], _, _, _, h => by simp [convertLines] at h
  | l :: ls, b, st, l', h => by
    rcases List.mem_cons.mp h with h1 | h2
    · subst h1
      rcases stepLine_out f b st l with h3 | h3
      · exact ⟨l, by simp, Or.inl h3⟩
      · exact ⟨l, by simp, Or.inr h3⟩
    · obtain ⟨l2, hl2, hcase⟩ := convertLines_mem f ls false (stepLine f b st l).1 l' h2
      exact ⟨l2, List.mem_cons_of_mem l hl2, hcase⟩

theorem proseL_noNL (d : Bool) (l : Str) (h : NL ∉ l) : NL ∉ proseL d l := by
  cases d
  · exact PW_not_mem Rstr_notNL (pw_strLine l) h
  · exact PW_not_mem Rcurl_notNL (pw_curlLine l) h

theorem convQ_lines (d : Bool) (x : Str) :
    splitNL (convQ d x) = convertLines (proseL d) true initState (splitNL x) := by
  have hjoin : convQ d x
      = joinNL (convertLines (proseL d) true initState (splitNL x)) := by
    cases d <;> rfl
  rw [hjoin]
  apply splitNL_joinNL
  · intro hh
    have hlen := convertLines_length (proseL d) (splitNL x) true initState
    rw [hh] at hlen
    exact splitOnChar_ne_nil NL x (List.length_eq_zero.mp hlen.symm)
  · intro l' hl'
    obtain ⟨l, hl, h1 | h1⟩ := convertLines_mem (proseL d) _ _ _ _ hl'
    · exact h1 ▸ splitOnChar_not_mem NL x l hl
    · exact h1 ▸ proseL_noNL d l (splitOnChar_not_mem NL x l hl)

theorem fenceParity_countP : ∀ L : List Str,
    (fenceParity L = true ↔ L.countP startsFence % 2 = 1)
  | [] => by simp [fenceParity]
  | l :: L => by
    have ih := fenceParity_countP L
    cases hp : fenceParity L with
    | false =>
      rw [hp] at ih
      have hc : ¬ (L.countP startsFence % 2 = 1) := by
        intro hh
        exact absurd (ih.mpr hh) (by simp)
      cases h : startsFence l <;>
        simp [fenceParity, h, hp, List.countP_cons] <;> omega
    | true =>
      rw [hp] at ih
      have hc : L.countP startsFence % 2 = 1 := ih.mp rfl
      cases h : startsFence l <;>
        simp [fenceParity, h, hp, List.countP_cons] <;> omega

/-- C2: protection invariant for both directions.  The output has the same
number of lines; any line preceded by an odd number of fence-marker lines
(hence lying inside a fenced code block) is emitted byte-identically; every
output line is either the input line itself or its prose-line
transformation; the inline-code splitter is a decomposition of the line
(concatenating the pieces restores the line exactly); the prose-line
transformation acts piecewise on that decomposition; and every inline-code
piece is kept verbatim by the per-piece transformation. -/
theorem C2_protection (d : Bool) (x : Str) :
    (splitNL (convQ d x)).length = (splitNL x).length
    ∧ (∀ i : Nat, i < (splitNL x).length →
        ((splitNL x).take i).countP startsFence % 2 = 1 →
        (splitNL (convQ d x))[i]? = (splitNL x)[i]?)
    ∧ (∀ i : Nat, i < (splitNL x).length →
        (splitNL (convQ d x))[i]? = (splitNL x)[i]?
        ∨ ∃ l, (splitNL x)[i]? = some l
            ∧ (splitNL (convQ d x))[i]? = some (proseL d l))
    ∧ (∀ l : Str, (splitInline l).flatten = l)
    ∧ (∀ l : Str, proseL d l = ((splitInline l).map (partT d)).flatten)
    ∧ (∀ p : Str, isCodePart p = true → partT d p = p) := by
  have hlen : (splitNL (convQ d x)).length = (splitNL x).length := by
    rw [convQ_lines d x]
    exact convertLines_length (proseL d) (splitNL x) true initState
  refine ⟨hlen, ?_, ?_, flatten_splitInline, ?_, ?_⟩
  · intro i h hodd
    have h2 : i < (convertLines (proseL d) true initState (splitNL x)).length := by
      rw [convertLines_length]
      exact h
    rw [convQ_lines d x]
    rw [List.getElem?_eq_getElem h2, List.getElem?_eq_getElem h]
    congr 1
    exact convertLines_protected (proseL d) (splitNL x) true initState i h h2
      (by
        simp only [initState, Bool.false_xor]
        exact (fenceParity_countP _).mpr hodd)
  · intro i h
    have h2 : i < (convertLines (proseL d) true initState (splitNL x)).length := by
      rw [convertLines_length]
      exact h
    rw [convQ_lines d x]
    rw [List.getElem?_eq_getElem h2, List.getElem?_eq_getElem h]
    rcases convertLines_get (proseL d) (splitNL x) true initState i h h2 with hcase | hcase
    · exact Or.inl (by rw [hcase])
    · exact Or.inr ⟨(splitNL x)[i], rfl, by rw [hcase]⟩
  · intro l
    cases d <;> rfl
  · intro p h
    cases d
    · simp [partT, straightquotes.partTransform, h]
    · simp [partT, smartquotes.partTransform, h]

/-- C2 (witness): the protection invariant applied to a concrete document
whose third line lies inside a fenced code block, and to a concrete
inline-code piece. -/
theorem C2_witness :
    (splitNL (convQ true ['p', NL, BT, BT, BT, NL, DQ, 'c', DQ]))[2]?
      = (splitNL ['p', NL, BT, BT, BT, NL, DQ, 'c', DQ])[2]?
    ∧ partT true [BT, 'x', BT] = [BT, 'x', BT] :=
  ⟨(C2_protection true ['p', NL, BT, BT, BT, NL, DQ, 'c', DQ]).2.1 2
      (by decide) (by decide),
    (C2_protection true ['p', NL, BT, BT, BT, NL, DQ, 'c', DQ]).2.2.2.2.2
      [BT, 'x', BT] (by decide)⟩

/-- C7: for every document and both directions, the output has exactly as
many lines as the input, and the line at every index is either the input
line unchanged or the prose-line transformation of that same input line —
lines are neither reordered, inserted nor dropped. -/
theorem C7_line_structure (d : Bool) (x : Str) :
    (splitNL (convQ d x)).length = (splitNL x).length
    ∧ (∀ i : Nat, i < (splitNL x).length →
        (splitNL (convQ d x))[i]? = (splitNL x)[i]?
        ∨ ∃ l, (splitNL x)[i]? = some l
            ∧ (splitNL (convQ d x))[i]? = some (proseL d l)) := by
  refine ⟨?_, ?_⟩
  · rw [convQ_lines d x]
    exact convertLines_length (proseL d) (splitNL x) true initState
  · intro i h
    have h2 : i < (convertLines (proseL d) true initState (splitNL x)).length := by
      rw [convertLines_length]
      exact h
    rw [convQ_lines d x]
    rw [List.getElem?_eq_getElem h2, List.getElem?_eq_getElem h]
    rcases convertLines_get (proseL d) (splitNL x) true initState i h h2 with hcase | hcase
    · exact Or.inl (by rw [hcase])
    · exact Or.inr ⟨(splitNL x)[i], rfl, by rw [hcase]⟩

/-- C7 (witness): line-structure preservation applied to a concrete
two-line document in the straighten direction. -/
theorem C7_witness :
    (splitNL (convQ false ['a', NL, LDQ, 'b', RDQ])).length
      = (splitNL ['a', NL, LDQ, 'b', RDQ]).length
    ∧ ((splitNL (convQ false ['a', NL, LDQ, 'b', RDQ]))[1]?
        = (splitNL ['a', NL, LDQ, 'b', RDQ])[1]?
      ∨ ∃ l, (splitNL ['a', NL, LDQ, 'b', RDQ])[1]? = some l
          ∧ (splitNL (convQ false ['a', NL, LDQ, 'b', RDQ]))[1]?
              = some (proseL false l)) :=
  ⟨(C7_line_structure false ['a', NL, LDQ, 'b', RDQ]).1,
    (C7_line_structure false ['a', NL, LDQ, 'b', RDQ]).2 1 (by decide)⟩

theorem consHead_map_length (c d : Char) :
    ∀ (L1 L2 : List Str), L1.map List.length = L2.map List.length →
      (consHead c L1).map List.length = (consHead d L2).map List.length
  | [], [], _ => rfl
  | [], _ :: _, h => by simp at h
  | _ :: _, [], h => by simp at h
  | p :: ps, q :: qs, h => by
    simp only [List.map_cons, List.cons.injEq] at h
    simp [consHead, h.1, h.2]

theorem splitLen_aux : ∀ (t1 t2 : Str) (acc1 acc2 : Option Str),
    PW (fun c d => (c = BT ↔ d = BT)) t1 t2 →
    (match acc1, acc2 with
      | none, none => True
      | some b1, some b2 => b1.length = b2.length
      | _, _ => False) →
    (splitInlineAux acc1 t1).map List.length
      = (splitInlineAux acc2 t2).map List.length := by
  intro t1
  induction t1 with
  | nil =>
    intro t2 acc1 acc2 pw hacc
    cases t2 with
    | cons d r2 => exact False.elim pw
    | nil =>
      cases acc1 with
      | none =>
        cases acc2 with
        | some b2 => exact False.elim hacc
        | none => rfl
      | some b1 =>
        cases acc2 with
        | none => exact False.elim hacc
        | some b2 => simp [splitInlineAux, hacc]
  | cons c r1 ih =>
    intro t2 acc1 acc2 pw hacc
    cases t2 with
    | nil => exact False.elim pw
    | cons d r2 =>
      obtain ⟨hcd, pwr⟩ := pw
      cases acc1 with
      | none =>
        cases acc2 with
        | some b2 => exact False.elim hacc
        | none =>
          by_cases hc : c = BT
          · have hd : d = BT := hcd.mp hc
            simp only [splitInlineAux, if_pos hc, if_pos hd]
            exact ih r2 (some []) (some []) pwr rfl
          · have hd : ¬ d = BT := fun hh => hc (hcd.mpr hh)
            simp only [splitInlineAux, if_neg hc, if_neg hd]
            exact consHead_map_length c d _ _ (ih r2 none none pwr trivial)
      | some b1 =>
        cases acc2 with
        | none => exact False.elim hacc
        | some b2 =>
          have haccL : b1.length = b2.length := hacc
          by_cases hc : c = BT
          · have hd : d = BT := hcd.mp hc
            simp only [splitInlineAux, if_pos hc, if_pos hd]
            by_cases hb : b1 = []
            · have hb2 : b2 = [] := by
                apply List.length_eq_zero.mp
                rw [← haccL, hb]
                rfl
              rw [if_pos hb, if_pos hb2]
              exact consHead_map_length BT BT _ _ (ih r2 (some []) (some []) pwr rfl)
            · have hb2 : ¬ b2 = [] := by
                intro hh
                subst hh
                exact hb (List.length_eq_zero.mp (by simpa using haccL))
              rw [if_neg hb, if_neg hb2]
              simp only [List.map_cons]
              rw [ih r2 none none pwr trivial]
              simp [haccL]
          · have hd : ¬ d = BT := fun hh => hc (hcd.mpr hh)
            simp only [splitInlineAux, if_neg hc, if_neg hd]
            exact ih r2 (some (c :: b1)) (some (d :: b2)) pwr (by simp [haccL])

theorem listRecov : ∀ (A B : List Str),
    A.map List.length = B.map List.length → A.flatten = B.flatten → A = B
  | [], [], _, _ => rfl
  | [], _ :: _, h, _ => by simp at h
  | _ :: _, [], h, _ => by simp at h
  | p :: A, q :: B, h, hf => by
    simp only [List.map_cons, List.cons.injEq] at h
    simp only [List.flatten_cons] at hf
    obtain ⟨hpq, hrest⟩ := List.append_inj hf h.1
    rw [hpq, listRecov A B h.2 hrest]

theorem strPart_length (p : Str) :
    (straightquotes.partTransform p).length = p.length := by
  unfold straightquotes.partTransform
  split
  · rfl
  · rw [straighten_eq_map, List.length_map]

theorem mapChar_BT (c : Char) : (mapChar c = BT) ↔ (c = BT) := by
  by_cases h1 : c = LDQ
  · subst h1; decide
  · by_cases h2 : c = RDQ
    · subst h2; decide
    · by_cases h3 : c = LSQ
      · subst h3; decide
      · by_cases h4 : c = RSQ
        · subst h4; decide
        · simp [mapChar, h1, h2, h3, h4]

theorem mapChar_idem (c : Char) : mapChar (mapChar c) = mapChar c := by
  by_cases h1 : c = LDQ
  · subst h1; decide
  · by_cases h2 : c = RDQ
    · subst h2; decide
    · by_cases h3 : c = LSQ
      · subst h3; decide
      · by_cases h4 : c = RSQ
        · subst h4; decide
        · simp only [mapChar, h1, h2, h3, h4, if_false]

theorem isCodePart_straighten (p : Str) :
    isCodePart (straightquotes.straighten_quotes p) = isCodePart p := by
  rw [straighten_eq_map]
  cases p with
  | nil => rfl
  | cons c rest =>
    simp only [List.map_cons, isCodePart]
    have hmap : (mapChar c :: rest.map mapChar).getLast?
        = ((c :: rest).getLast?).map mapChar := by
      rw [← List.map_cons]
      rw [List.getLast?_eq_head?_reverse, List.getLast?_eq_head?_reverse]
      rw [← List.map_reverse, List.head?_map]
    have hiff : ((mapChar c :: rest.map mapChar).getLast? = some BT)
        ↔ ((c :: rest).getLast? = some BT) := by
      rw [hmap]
      cases hlast : (c :: rest).getLast? with
      | none => simp at hlast
      | some z =>
        simp only [Option.map_some', Option.some_inj]
        exact mapChar_BT z
    rw [decide_eq_decide.mpr (mapChar_BT c), decide_eq_decide.mpr hiff]

theorem strPart_idem (p : Str) :
    straightquotes.partTransform (straightquotes.partTransform p)
      = straightquotes.partTransform p := by
  by_cases h : isCodePart p = true
  · have e : straightquotes.partTransform p = p := by
      simp [straightquotes.partTransform, h]
    rw [e]
    exact e
  · have h1 : straightquotes.partTransform p
        = straightquotes.straighten_quotes p := by
      simp [straightquotes.partTransform, h]
    rw [h1]
    have h2 : isCodePart (straightquotes.straighten_quotes p) = false := by
      rw [isCodePart_straighten]
      simpa using h
    simp only [straightquotes.partTransform, h2, Bool.false_eq_true, if_false]
    rw [straighten_eq_map, straighten_eq_map, List.map_map]
    apply List.map_congr_left
    intro c _
    exact mapChar_idem c

theorem splitInline_SL (l : Str) :
    splitInline (straightquotes.convert_prose_line l)
      = (splitInline l).map straightquotes.partTransform := by
  have hbt : PW (fun c d => (c = BT ↔ d = BT)) l
      (straightquotes.convert_prose_line l) :=
    PW_mono Rstr_iffBT (pw_strLine l)
  have hlen1 : (splitInline l).map List.length
      = (splitInline (straightquotes.convert_prose_line l)).map List.length :=
    splitLen_aux l (straightquotes.convert_prose_line l) none none hbt trivial
  have hlen2 : ((splitInline l).map straightquotes.partTransform).map List.length
      = (splitInline l).map List.length := by
    rw [List.map_map]
    apply List.map_congr_left
    intro p _
    exact strPart_length p
  apply listRecov
  · rw [hlen2, hlen1]
  · rw [flatten_splitInline]
    rfl

theorem strLine_idem (l : Str) :
    straightquotes.convert_prose_line (straightquotes.convert_prose_line l)
      = straightquotes.convert_prose_line l := by
  show ((splitInline (straightquotes.convert_prose_line l)).map
      straightquotes.partTransform).flatten = straightquotes.convert_prose_line l
  rw [splitInline_SL, List.map_map]
  have : (straightquotes.partTransform ∘ straightquotes.partTransform)
      = fun p => straightquotes.partTransform (straightquotes.partTransform p) := rfl
  rw [show ((splitInline l).map
      (straightquotes.partTransform ∘ straightquotes.partTransform))
      = (splitInline l).map straightquotes.partTransform from
    List.map_congr_left (fun p _ => strPart_idem p)]
  rfl

theorem stepLine_prose2 (f : Str → Str) (b : Bool) (st : QState) (l : Str)
    (hicb : st.in_code_block = false) (hfm : st.in_front_matter = false)
    (hfence : startsFence l = false) (hbl : ¬(b = true ∧ l = dashes)) :
    stepLine f b st l = (st, f l) := by
  have h2 : ¬(st.in_front_matter = true ∧ l = dashes) := by
    intro hh
    rw [hfm] at hh
    exact absurd hh.1 (by simp)
  have h3 : ¬(startsFence l = true) := by simp [hfence]
  have h4 : ¬(st.in_code_block = true ∨ st.in_front_matter = true) := by
    simp [hicb, hfm]
  unfold stepLine
  rw [if_neg hbl, if_neg h2, if_neg h3, if_neg h4]

theorem stepLine_idem (f : Str → Str)
    (hf1 : ∀ l, f (f l) = f l)
    (hf2 : ∀ l, f l = dashes → l = dashes)
    (hf3 : ∀ l, startsFence (f l) = startsFence l)
    (b : Bool) (st : QState) (l : Str) :
    stepLine f b st (stepLine f b st l).2 = stepLine f b st l := by
  by_cases h1 : b = true ∧ l = dashes
  · obtain ⟨hb, hl⟩ := h1
    subst hb
    subst hl
    have out2 : (stepLine f true st dashes).2 = dashes := by
      simp [stepLine]
    rw [out2]
  · by_cases h2 : st.in_front_matter = true ∧ l = dashes
    · obtain ⟨hfm, hl⟩ := h2
      subst hl
      have out2 : (stepLine f b st dashes).2 = dashes := by
        unfold stepLine
        rw [if_neg h1, if_pos ⟨hfm, rfl⟩]
      rw [out2]
    · by_cases h3 : startsFence l = true
      · have out2 : (stepLine f b st l).2 = l := by
          unfold stepLine
          rw [if_neg h1, if_neg h2, if_pos h3]
        rw [out2]
      · by_cases h4 : st.in_code_block = true ∨ st.in_front_matter = true
        · have out2 : (stepLine f b st l).2 = l := by
            unfold stepLine
            rw [if_neg h1, if_neg h2, if_neg h3, if_pos h4]
          rw [out2]
        · have hicb : st.in_code_block = false := by
            cases hc : st.in_code_block
            · rfl
            · exact absurd (Or.inl hc) h4
          have hfm : st.in_front_matter = false := by
            cases hc : st.in_front_matter
            · rfl
            · exact absurd (Or.inr hc) h4
          have hfence : startsFence l = false := by
            cases hc : startsFence l
            · rfl
            · exact absurd hc h3
          have e : stepLine f b st l = (st, f l) :=
            stepLine_prose2 f b st l hicb hfm hfence h1
          rw [e]
          show stepLine f b st (f l) = (st, f l)
          have e2 : stepLine f b st (f l) = (st, f (f l)) :=
            stepLine_prose2 f b st (f l) hicb hfm (by rw [hf3 l]; exact hfence)
              (fun hh => h1 ⟨hh.1, hf2 l hh.2⟩)
          rw [e2, hf1 l]

theorem convertLines_idem (f : Str → Str)
    (hf1 : ∀ l, f (f l) = f l)
    (hf2 : ∀ l, f l = dashes → l = dashes)
    (hf3 : ∀ l, startsFence (f l) = startsFence l) :
    ∀ (ls : List Str) (b : Bool) (st : QState),
      convertLines f b st (convertLines f b st ls) = convertLines f b st ls
  | [], _, _ => rfl
  | l :: ls, b, st => by
    simp only [convertLines]
    rw [stepLine_idem f hf1 hf2 hf3 b st l]
    rw [convertLines_idem f hf1 hf2 hf3 ls false (stepLine f b st l).1]

/-- C10: the straighten direction is idempotent on every input document:
applying `straightquotes.convert_quotes` twice gives the same result as
applying it once.  The per-line transformation is idempotent (the inline
splitter cuts the transformed line at the same backtick positions, kept
pieces stay kept and the character replacement is idempotent), and it
never changes a line's classification (marker lines and fence prefixes are
preserved), so the second pass repeats the first line for line. -/
theorem C10_straighten_idem (x : Str) :
    straightquotes.convert_quotes (straightquotes.convert_quotes x)
      = straightquotes.convert_quotes x := by
  have hL : splitNL (straightquotes.convert_quotes x)
      = convertLines straightquotes.convert_prose_line true initState (splitNL x) :=
    convQ_lines false x
  show joinNL (convertLines straightquotes.convert_prose_line true initState
      (splitNL (straightquotes.convert_quotes x)))
    = straightquotes.convert_quotes x
  rw [hL]
  rw [convertLines_idem straightquotes.convert_prose_line strLine_idem
    (fun l => PW_to_dashes Rstr_dash (pw_strLine l))
    (fun l => PW_startsFence Rstr_iffBT (pw_strLine l))
    (splitNL x) true initState]
  rfl
